import Mathlib

set_option linter.unusedVariables false
set_option allowUnsafeReducibility true
attribute [semireducible] Rat.add Rat.sub Rat.mul Rat.neg Rat.inv

/-!
Shallow embedding of `networkbuild/ModBoruvka.py` (crosscompute/networker).

Conventions of the embedding:
* Python numbers that take part in the algorithm's comparisons and ledger
  arithmetic are modelled as exact rationals `ℚ` (node coordinates are
  `(lon, lat) : ℚ × ℚ`).  The trigonometric primitives
  (`cartesian_projection`, the body of `get_hav_distance`, the cKDTree) never
  influence the claims settled here except through the interfaces modelled
  below, because the module-level faults in `memoize`/`k_cache` make them
  unreachable (see `memoize`, `FNNd`).
* Python dictionaries whose key set matters (`UnionFind.parents`) are
  association lists; dictionaries that are only ever read at keys the
  algorithm has written are total functions updated pointwise.
* Python lists are heap objects: `children` and `queues` store object ids
  (`childRef`/`queueRef`) into stores (`childStore`/`queueStore`), which
  reproduces the source's aliasing of list/queue objects across union-find
  entries.
* Fallible statements return `Except PyError`; the loop of `UnionFind.find`
  carries explicit fuel (`ufFuel`, incremented on union so that it always
  dominates the parent-chain length of well-formed states).
-/

namespace Networker

/-- Python exceptions raised by the embedded code. -/
inductive PyError where
  | nameError
  | typeError
  | valueError
  | indexError
  | keyError
  | recursionError
deriving DecidableEq, Repr

/-- Pointwise update of a total function, modelling `d[k] = v` on a Python
dict that is only read at keys previously written. -/
def fnUpdate {β : Type} (f : Nat → β) (k : Nat) (v : β) : Nat → β :=
  fun x => if x = k then v else f x

/-- Lookup in an association list modelling a Python dict (`d[k]`/`k in d`). -/
def alGet (l : List (Nat × Nat)) (k : Nat) : Option Nat :=
  (l.find? (fun kv => kv.1 = k)).map (fun kv => kv.2)

/-- Write to an association list modelling `d[k] = v` (lookup and key-set
semantics of the Python dict assignment; the storage order of the other
keys is never observed). -/
def alSet (l : List (Nat × Nat)) (k v : Nat) : List (Nat × Nat) :=
  (k, v) :: l.filter (fun kv => kv.1 ≠ k)

/-! ### `heapq` (Python standard library, used by `PriorityQueue`)

Entries are `(priority, index, item)` triples.  Python compares such tuples
lexicographically and reaches the third component only when priority and
index agree; every `PriorityQueue` stamps entries with a strictly increasing
per-queue `_index`, so the item is never compared and the order is fully
determined by `(priority, index)`. -/

/-- Heap entries `(priority, index, item)`. -/
abbrev Entry (α : Type) : Type := ℚ × Nat × α

/-- Python's `<` on `(priority, index, item)` tuples as used by `heapq`
(the item component is never reached, see above). -/
def entLt {α : Type} (x y : Entry α) : Bool :=
  decide (x.1 < y.1) || (decide (x.1 = y.1) && decide (x.2.1 < y.2.1))

/-- CPython `heapq._siftdown(heap, startpos, pos)`: `newitem` bubbles towards
the root while it is smaller than its parent.  CPython keeps `newitem` in a
local and writes parents down over its slot; the final write stores
`newitem` at the resting position.  The first `Nat` argument is fuel for the
loop (the loop position strictly decreases, so any fuel above the starting
position runs the loop to its real exit; fuel exhaustion performs the final
write early and is unreachable from the call sites below). -/
def siftdown {α : Type} (startpos : Nat) (newitem : Entry α) :
    Nat → Nat → List (Entry α) → List (Entry α)
  | 0, pos, heap => heap.set pos newitem
  | fuel + 1, pos, heap =>
    if startpos < pos then
      let parentpos := (pos - 1) / 2
      match heap[parentpos]? with
      | none => heap.set pos newitem
      | some parent =>
        if entLt newitem parent then
          siftdown startpos newitem fuel parentpos (heap.set pos parent)
        else
          heap.set pos newitem
    else
      heap.set pos newitem

/-- CPython `heapq.heappush(heap, item)`: append, then sift the new leaf up. -/
def heappush {α : Type} (heap : List (Entry α)) (item : Entry α) : List (Entry α) :=
  siftdown 0 item (heap.length + 1) heap.length (heap ++ [item])

/-- CPython `heapq._siftup(heap, pos)`: move the smaller child up along the
path from `pos` to a leaf, then sift `newitem` down from the vacated leaf.
The first `Nat` argument is fuel (the position strictly increases towards
`endpos`, so fuel `endpos` suffices; exhaustion jumps to the final
`_siftdown` early and is unreachable from the call site below). -/
def siftupLoop {α : Type} [Inhabited α] (endpos startpos : Nat) (newitem : Entry α) :
    Nat → Nat → List (Entry α) → List (Entry α)
  | 0, pos, heap => siftdown startpos newitem (pos + 1) pos heap
  | fuel + 1, pos, heap =>
    let childpos := 2 * pos + 1
    if childpos < endpos then
      let rightpos := childpos + 1
      let cpos :=
        if rightpos < endpos && !(entLt (heap.getD childpos default) (heap.getD rightpos default)) then
          rightpos
        else
          childpos
      siftupLoop endpos startpos newitem fuel cpos (heap.set pos (heap.getD cpos default))
    else
      siftdown startpos newitem (pos + 1) pos heap

/-- CPython `heapq.heappop(heap)`: detach the last element; if the heap is
still nonempty, remember the head, move the last element to position 0 and
re-sift.  Popping an empty heap raises `IndexError`, modelled as `none`. -/
def heappop {α : Type} [Inhabited α] (heap : List (Entry α)) :
    Option (Entry α × List (Entry α)) :=
  match heap.getLast? with
  | none => none
  | some lastelt =>
    let rest := heap.dropLast
    if rest.isEmpty then
      some (lastelt, [])
    else
      some (rest.getD 0 default, siftupLoop rest.length 0 lastelt rest.length 0 (rest.set 0 lastelt))

/-! ### `PriorityQueue` (ModBoruvka.py lines 112-134) -/

/-- The `PriorityQueue` class: `_queue` is the `heapq` backing list, `_index`
the per-queue insertion counter. -/
structure PriorityQueue (α : Type) where
  _queue : List (Entry α)
  _index : Nat
deriving Repr

/-- `PriorityQueue()`: fresh empty queue. -/
def PriorityQueue.empty {α : Type} : PriorityQueue α := ⟨[], 0⟩

/-- `push(item, priority)` (line 117). -/
def PriorityQueue.push {α : Type} (q : PriorityQueue α) (item : α) (priority : ℚ) :
    PriorityQueue α :=
  ⟨heappush q._queue (priority, q._index, item), q._index + 1⟩

/-- `pop()` (line 121): `heapq.heappop(self._queue)[-1]`.  The `IndexError`
of popping an empty queue is modelled as `none` (the one caller that can hit
it wraps the call in `try/except`). -/
def PriorityQueue.pop {α : Type} [Inhabited α] (q : PriorityQueue α) :
    Option (α × PriorityQueue α) :=
  (heappop q._queue).map (fun er => (er.1.2.2, ⟨er.2, q._index⟩))

/-- `top()` (line 130): `self._queue[0][-1]`, with the `except` branch
returning `None` on an empty backing list. -/
def PriorityQueue.top {α : Type} (q : PriorityQueue α) : Option α :=
  q._queue.head?.map (fun e => e.2.2)

/-- The drain loop of `merge` (lines 124-127): repeatedly `heappop` the other
queue and re-push the `(item, priority)` pair under a fresh own index.  Run
with fuel `other._queue.length`, which empties the other queue. -/
def mergeDrain {α : Type} [Inhabited α] (selfq otherq : PriorityQueue α) :
    Nat → PriorityQueue α × PriorityQueue α
  | 0 => (selfq, otherq)
  | fuel + 1 =>
    match heappop otherq._queue with
    | none => (selfq, otherq)
    | some (e, rest) => mergeDrain (selfq.push e.2.2 e.1) ⟨rest, otherq._index⟩ fuel

/-- `merge(other)` (lines 124-128).  After the drain, the source executes
`self._queue = list(set(self._queue))`; CPython's set iteration order is
implementation-defined, so it is modelled by an oracle `setOrder` supplied by
the context (legality of an oracle — that it returns a permutation of the
distinct elements — is a hypothesis of the theorems below).  Both resulting
queues are returned: `self` first, the drained `other` second. -/
def PriorityQueue.merge {α : Type} [Inhabited α]
    (setOrder : List (Entry α) → List (Entry α)) (selfq otherq : PriorityQueue α) :
    PriorityQueue α × PriorityQueue α :=
  let so := mergeDrain selfq otherq otherq._queue.length
  ({ so.1 with _queue := setOrder so.1._queue }, so.2)

/-! ### Geometry (ModBoruvka.py lines 204-271) -/

/-- Axis-aligned bounding box, in the order returned by `make_bounding_box`. -/
structure Box where
  xmin : ℚ
  ymin : ℚ
  xmax : ℚ
  ymax : ℚ
deriving DecidableEq, Repr

/-- `make_bounding_box(u, v)` (lines 204-209): componentwise min/max of the
two endpoints, returned as `(xmin, ymin, xmax, ymax)`. -/
def make_bounding_box (u v : ℚ × ℚ) : Box :=
  ⟨min u.1 v.1, min u.2 v.2, max u.1 v.1, max u.2 v.2⟩

/-- Closed-rectangle overlap, the query semantics of the `rtree` index
(`rtree.intersection(box)` returns exactly the stored entries whose boxes
meet the query box; the iteration order is unspecified and irrelevant here
because only an existence test is performed on the results). -/
def boxesOverlap (a b : Box) : Bool :=
  decide (a.xmin ≤ b.xmax) && decide (b.xmin ≤ a.xmax) &&
  decide (a.ymin ≤ b.ymax) && decide (b.ymin ≤ a.ymax)

/-- `np.cross` of two 2-D vectors: the scalar z-component. -/
def np_cross (a b : ℚ × ℚ) : ℚ := a.1 * b.2 - a.2 * b.1

/-- Componentwise difference of coordinate pairs (`p - q` on numpy arrays). -/
def vsub (a b : ℚ × ℚ) : ℚ × ℚ := (a.1 - b.1, a.2 - b.2)

/-- Python's chained `a != b != c != d` on booleans, which parses as
`(a != b) and (b != c) and (c != d)`. -/
def chainNe (a b c d : Bool) : Bool := (a != b) && (b != c) && (c != d)

/-- The collinear-overlap expression of lines 237-240: the chained `!=` test
on the x-signs, or the same on the y-signs. -/
def overlappingTest (p1 p2 p3 p4 : ℚ × ℚ) : Bool :=
  chainNe (decide (p3.1 - p1.1 < 0)) (decide (p3.1 - p2.1 < 0))
          (decide (p4.1 - p1.1 < 0)) (decide (p4.1 - p2.1 < 0)) ||
  chainNe (decide (p3.2 - p1.2 < 0)) (decide (p3.2 - p2.2 < 0))
          (decide (p4.2 - p1.2 < 0)) (decide (p4.2 - p2.2 < 0))

/-- The shared-endpoint exception (lines 243-246 and 261-264): exactly the
four `np.array_equal` disjuncts of the source. -/
def sharesEndpoint (p1 p2 p3 p4 : ℚ × ℚ) : Bool :=
  (decide (p1 = p3) && decide (p2 ≠ p4)) ||
  (decide (p1 = p4) && decide (p2 ≠ p3)) ||
  (decide (p2 = p3) && decide (p1 ≠ p4)) ||
  (decide (p2 = p4) && decide (p1 ≠ p3))

/-- The per-pair segment test of the loop body of `line_intersection`
(lines 230-268): `true` exactly when the loop would `return True` for this
candidate pair, `false` when it would `continue`. -/
def pairCrosses (p1 p2 p3 p4 : ℚ × ℚ) : Bool :=
  let r := vsub p2 p1
  let s := vsub p4 p3
  let numerator := np_cross (vsub p3 p1) r
  let denominator := np_cross r s
  if numerator = 0 ∧ denominator = 0 then
    if overlappingTest p1 p2 p3 p4 then
      if sharesEndpoint p1 p2 p3 p4 then false else true
    else false
  else if denominator = 0 then
    false
  else
    let u := numerator / denominator
    let t := np_cross (vsub p3 p1) s / denominator
    if (0 ≤ t ∧ t ≤ 1) ∧ (0 ≤ u ∧ u ≤ 1) then
      if sharesEndpoint p1 p2 p3 p4 then false else true
    else false

/-- `line_intersection(rtree, um, vm, coords)` (lines 211-271).  The rtree is
the list of accepted segments, stored by their node pairs; the bounding-box
query filters them, and the loop returns `True` on the first pair that
crosses. -/
def line_intersection (rtree : List (Nat × Nat)) (um vm : Nat)
    (coords : Nat → ℚ × ℚ) : Bool :=
  let p1 := coords um
  let p2 := coords vm
  let box := make_bounding_box p1 p2
  (rtree.filter (fun uv =>
      boxesOverlap box (make_bounding_box (coords uv.1) (coords uv.2)))).any
    (fun uv => pairCrosses p1 p2 (coords uv.1) (coords uv.2))

/-- Modelled from the spec (§4.4 and §9, for comparison with the source's
`overlappingTest`): two collinear segments overlap on their common line iff
at least one endpoint of either segment lies within the closed bounding
interval of the other segment along the dominant axis of `p1 p2`. -/
def specCollinearOverlap (p1 p2 p3 p4 : ℚ × ℚ) : Bool :=
  if |p2.1 - p1.1| ≥ |p2.2 - p1.2| then
    (decide (min p1.1 p2.1 ≤ p3.1 ∧ p3.1 ≤ max p1.1 p2.1)) ||
    (decide (min p1.1 p2.1 ≤ p4.1 ∧ p4.1 ≤ max p1.1 p2.1)) ||
    (decide (min p3.1 p4.1 ≤ p1.1 ∧ p1.1 ≤ max p3.1 p4.1)) ||
    (decide (min p3.1 p4.1 ≤ p2.1 ∧ p2.1 ≤ max p3.1 p4.1))
  else
    (decide (min p1.2 p2.2 ≤ p3.2 ∧ p3.2 ≤ max p1.2 p2.2)) ||
    (decide (min p1.2 p2.2 ≤ p4.2 ∧ p4.2 ≤ max p1.2 p2.2)) ||
    (decide (min p3.2 p4.2 ≤ p1.2 ∧ p1.2 ≤ max p3.2 p4.2)) ||
    (decide (min p3.2 p4.2 ≤ p2.2 ∧ p2.2 ≤ max p3.2 p4.2))

/-- Modelled from the spec (§4.4): for collinear segments, report a crossing
iff they overlap on the shared line and do not merely share a single
endpoint. -/
def specCollinearCrossing (p1 p2 p3 p4 : ℚ × ℚ) : Bool :=
  specCollinearOverlap p1 p2 p3 p4 && !(sharesEndpoint p1 p2 p3 p4)

/-! ### `memoize` and the haversine distance (lines 15-23 and 143-165) -/

/-- `memoize(f)` (lines 15-23): the decorator's body defines the `memodict`
class but contains no `return` statement, so the decorator returns Python's
`None` whatever `f` is. -/
def memoize {α : Type} (f : α) : Option α := none

/-- The undecorated body of `get_hav_distance` (lines 149-165).  Its first
statement evaluates `pi / 180.0`, and the module never binds `pi` (there is
no `from math import pi`), so a call would raise `NameError` before any
trigonometry happens; the result type is therefore never produced. -/
def get_hav_distance_body (lat lon pcode_lat pcode_lon : ℚ) : Except PyError ℚ :=
  .error .nameError

/-- The module-level binding `get_hav_distance = memoize(<body>)`: `None`. -/
def get_hav_distance : Option (ℚ → ℚ → ℚ → ℚ → Except PyError ℚ) :=
  memoize get_hav_distance_body

/-- `hav_dist(point1, point2)` (lines 143-146): unpack the coordinates and
call `get_hav_distance(y1, x1, y2, x2)`.  The callee is the module-level
binding, which is `None`, so the call raises `TypeError`. -/
def hav_dist (point1 point2 : ℚ × ℚ) : Except PyError ℚ :=
  match get_hav_distance with
  | none => .error .typeError
  | some f => f point1.2 point1.1 point2.2 point2.1

/-! ### `FNNd` and the entry point `modBoruvka` as written (lines 167-183,
273-359) -/

/-- `projected_KDTree(coords)` (lines 201-202) builds a cKDTree over the
Cartesian projection of the coordinates.  The tree is observable only
through `kdtree.query` inside `FNNd`, which raises before the query (see
`FNNd`), so the tree is represented by the coordinate list it indexes. -/
def projected_KDTree (coords : List (ℚ × ℚ)) : List (ℚ × ℚ) := coords

/-- `FNNd(kdtree, A, b)` (lines 167-183).  After `a = None` and the
projection of `b`, the statement
`k = k_cache[str(b)] if str(b) in k_cache else 2` evaluates
`str(b) in k_cache`; the module never defines `k_cache`, so every call
raises `NameError` before the k-NN index is consulted. -/
def FNNd (kdtree : List (ℚ × ℚ)) (A : List Nat) (b : ℚ × ℚ) : Except PyError Nat :=
  .error .nameError

/-- `np.row_stack(seq)` raises `ValueError` ("need at least one array") on an
empty sequence and otherwise stacks the rows. -/
def np_row_stack {β : Type} (ls : List β) : Except PyError (List β) :=
  if ls.isEmpty then .error .valueError else .ok ls

/-- `modBoruvka(T)` (lines 273-359) as written.  `coords` is stacked from
the node attributes (raising `ValueError` when `V` is empty), the k-d tree
is built, and the initialisation loop runs `FNNd(kdtree, V, coords[v])` for
every node — which raises `NameError` on its first iteration.  Every call
therefore raises before the first round; the round loop is dead code
(`modBoruvka_raises` below), so the embedding ends with the (unreachable)
return of the accepted-edge list. -/
def modBoruvka (V : List Nat) (coords : Nat → ℚ × ℚ) :
    Except PyError (List (Nat × Nat)) := do
  let cs ← np_row_stack (V.map coords)
  let kdtree := projected_KDTree cs
  let _ ← V.forM (fun v => do
    let _ ← FNNd kdtree V (coords v)
    pure ())
  pure []

/-! ### `UnionFind` (ModBoruvka.py lines 25-110) -/

/-- The `UnionFind` class state.  `nodeMv` is the read-only graph attribute
`self.graph.node[v]['mv']`.  `parents` is the dict `self.parents` (an
association list, because `in self.parents` drives lazy registration).
`weights` and `mv` are dicts read only at registered keys, modelled as total
functions.  `children`/`queues` hold references to mutable list/queue
objects; the references (`childRef`/`queueRef`) index heap stores
(`childStore`/`queueStore`) and `nextObj` allocates fresh objects, which
reproduces the source's aliasing of these objects across entries.  `ufFuel`
bounds the parent-chain length of the find loop (incremented on union, so
that it always suffices on well-formed states). -/
structure UnionFind where
  nodeMv : Nat → ℚ
  parents : List (Nat × Nat)
  weights : Nat → Nat
  mv : Nat → ℚ
  childRef : Nat → Nat
  childStore : Nat → List Nat
  queueRef : Nat → Nat
  queueStore : Nat → PriorityQueue (Nat × Nat)
  nextObj : Nat
  ufFuel : Nat

/-- `UnionFind(G)` (lines 48-55): empty dicts; only the graph is kept. -/
def UnionFind.init (nodeMv : Nat → ℚ) : UnionFind :=
  { nodeMv := nodeMv
    parents := []
    weights := fun _ => 0
    mv := fun _ => 0
    childRef := fun _ => 0
    childStore := fun _ => []
    queueRef := fun _ => 0
    queueStore := fun _ => PriorityQueue.empty
    nextObj := 0
    ufFuel := 1 }

/-- The find loop of `__getitem__` (lines 70-74): walk `root = parents[...]`
until it equals the last element of the path, collecting the path.  `last`
is `path[-1]`, `path` accumulates all visited nodes (order irrelevant: they
are all redirected to the root).  Fuel exhaustion models a cyclic parent
chain (impossible on well-formed states) as `RecursionError`. -/
def findLoop (par : List (Nat × Nat)) (last root : Nat) (path : List Nat) :
    Nat → Except PyError (Nat × List Nat)
  | 0 => .error .recursionError
  | fuel + 1 =>
    if root = last then .ok (root, path)
    else
      match alGet par root with
      | none => .error .keyError
      | some r2 => findLoop par root r2 (root :: path) fuel

/-- `X[object]` = `__getitem__` (lines 57-79): lazily register an unknown
object as a singleton (weight 1, budget `nodeMv`, fresh one-element child
list and fresh empty queue), otherwise find the root and compress the whole
visited path onto it. -/
def UnionFind.getitem (s : UnionFind) (x : Nat) : Except PyError (Nat × UnionFind) :=
  match alGet s.parents x with
  | none =>
    .ok (x, { s with
      parents := alSet s.parents x x
      weights := fnUpdate s.weights x 1
      mv := fnUpdate s.mv x (s.nodeMv x)
      childRef := fnUpdate s.childRef x s.nextObj
      childStore := fnUpdate s.childStore s.nextObj [x]
      queueRef := fnUpdate s.queueRef x (s.nextObj + 1)
      queueStore := fnUpdate s.queueStore (s.nextObj + 1) PriorityQueue.empty
      nextObj := s.nextObj + 2 })
  | some p => do
    let rp ← findLoop s.parents x p [x] s.ufFuel
    .ok (rp.1, { s with
      parents := rp.2.foldl (fun pr a => alSet pr a rp.1) s.parents })

/-- `union(g1, g2, d)` (lines 85-101).  `heaviest` is
`max([(weights[r], r) for r in roots])[1]` — the lexicographic max of the
weight/root pairs; `r` is the other root, and `[...][0]` raises `IndexError`
when the two roots coincide.  The budget written to both old roots is
`(mv[g1] + mv[g2]) - d`, read at the argument nodes, not at the roots.
Children are extended in place on the surviving object and the absorbed
entry re-aliased; queues are merged (draining the absorbed object in place)
and re-aliased likewise. -/
def UnionFind.union (setOrder : List (Entry (Nat × Nat)) → List (Entry (Nat × Nat)))
    (s : UnionFind) (g1 g2 : Nat) (d : ℚ) : Except PyError UnionFind :=
  match s.getitem g1 with
  | .error e => .error e
  | .ok rs1 =>
  match rs1.2.getitem g2 with
  | .error e => .error e
  | .ok rs2 =>
  let s2 := rs2.2
  let r1 := rs1.1
  let r2 := rs2.1
  let heaviest :=
    if s2.weights r1 < s2.weights r2 ∨ (s2.weights r1 = s2.weights r2 ∧ r1 < r2) then r2
    else r1
  match [r1, r2].filter (fun r => r ≠ heaviest) with
  | [] => .error .indexError
  | r :: _ =>
    let newmv := s2.mv g1 + s2.mv g2 - d
    let hc := s2.childRef heaviest
    let rc := s2.childRef r
    let hq := s2.queueRef heaviest
    let rq := s2.queueRef r
    let qpair := PriorityQueue.merge setOrder (s2.queueStore hq) (s2.queueStore rq)
    .ok { s2 with
      parents := alSet s2.parents r heaviest
      weights := fnUpdate s2.weights heaviest (s2.weights heaviest + s2.weights r)
      mv := fnUpdate (fnUpdate s2.mv heaviest newmv) r newmv
      childStore := fnUpdate s2.childStore hc (s2.childStore hc ++ s2.childStore rc)
      childRef := fnUpdate s2.childRef r hc
      queueStore := fnUpdate (fnUpdate s2.queueStore hq qpair.1) rq qpair.2
      queueRef := fnUpdate s2.queueRef r hq
      ufFuel := s2.ufFuel + 1 }

/-! ### The commit phase of `modBoruvka` (lines 329-352) -/

/-- The state mutated by the commit loop: the union-find, the accepted-edge
list `Et` and the rtree contents (accepted segments by node pair). -/
structure EngineState where
  uf : UnionFind
  Et : List (Nat × Nat)
  rtree : List (Nat × Nat)

/-- One iteration of the commit loop (lines 331-352) on a popped candidate
`(um, vm, dm)`:
if the roots differ and `mv[um] >= dm`, and furthermore `mv[vm] >= dm`, the
components are unioned, and if no line intersection is reported the edge is
appended to `Et` and inserted into the rtree (a union whose edge crosses is
kept without a recorded edge);
if the roots coincide or `mv[um] < dm`, the queue referenced at `um` is
popped inside `try/except` (no-op when empty);
in the remaining case (roots differ, `mv[um] >= dm > mv[vm]`) nothing
happens. -/
def commitStep (setOrder : List (Entry (Nat × Nat)) → List (Entry (Nat × Nat)))
    (coords : Nat → ℚ × ℚ) (st : EngineState) (c : Nat × Nat × ℚ) :
    Except PyError EngineState :=
  let um := c.1
  let vm := c.2.1
  let dm := c.2.2
  match st.uf.getitem um with
  | .error e => .error e
  | .ok ru =>
  match ru.2.getitem vm with
  | .error e => .error e
  | .ok rv =>
  let s2 := rv.2
  if ru.1 ≠ rv.1 ∧ dm ≤ s2.mv um then
    if dm ≤ s2.mv vm then
      match UnionFind.union setOrder s2 um vm dm with
      | .error e => .error e
      | .ok s3 =>
      if line_intersection st.rtree um vm coords then
        .ok { uf := s3, Et := st.Et, rtree := st.rtree }
      else
        .ok { uf := s3, Et := st.Et ++ [(um, vm)], rtree := st.rtree ++ [(um, vm)] }
    else
      .ok { uf := s2, Et := st.Et, rtree := st.rtree }
  else
    match (s2.queueStore (s2.queueRef um)).pop with
    | none => .ok { uf := s2, Et := st.Et, rtree := st.rtree }
    | some q =>
      .ok { uf := { s2 with queueStore := fnUpdate s2.queueStore (s2.queueRef um) q.2 },
            Et := st.Et, rtree := st.rtree }

/-- The commit loop `while Ep._queue: ... Ep.pop()` (lines 330-352), with
fuel (any fuel at least `Ep`'s length runs the loop to completion; smaller
fuel stops early, which is harmless for the invariants proved below). -/
def commitLoop (setOrder : List (Entry (Nat × Nat)) → List (Entry (Nat × Nat)))
    (coords : Nat → ℚ × ℚ) (st : EngineState) (ep : PriorityQueue (Nat × Nat × ℚ)) :
    Nat → Except PyError EngineState
  | 0 => .ok st
  | fuel + 1 =>
    match ep.pop with
    | none => .ok st
    | some cep =>
      match commitStep setOrder coords st cep.1 with
      | .error e => .error e
      | .ok st2 => commitLoop setOrder coords st2 cep.2 fuel

/-- The registration effect of the initialisation loop (lines 284-290): the
loop computes `root = subgraphs[v]` for every node, registering each node as
a singleton.  (Its `FNNd` call and queue push cannot run in the literal
module, see `FNNd`; the commit-phase development takes states of this shape
as starting points.) -/
def registerAll (s : UnionFind) (V : List Nat) : Except PyError UnionFind :=
  V.foldlM (fun acc v => (acc.getitem v).map (fun rp => rp.2)) s

/-! ### Semantic root function and well-formedness -/

/-- Pure root computation along the parent chain, with fuel. -/
def rootPure (par : List (Nat × Nat)) (x : Nat) : Nat → Option Nat
  | 0 => none
  | fuel + 1 =>
    match alGet par x with
    | none => none
    | some p => if p = x then some x else rootPure par p fuel

/-- `x` reaches the root `r` along the parent chain. -/
def IsRoot (par : List (Nat × Nat)) (x r : Nat) : Prop :=
  ∃ n, rootPure par x n = some r

/-- The root of `x` in a union-find state, for use in theorem statements:
the chain walk with the state's fuel, defaulting to `x` itself for
unregistered nodes. -/
def rootD (s : UnionFind) (x : Nat) : Nat :=
  (rootPure s.parents x s.ufFuel).getD x

/-- Well-formedness of a union-find state: positive fuel, every registered
node reaches a root within the state's fuel, and the child/queue object ids
of registered nodes lie below the allocator counter. -/
def WF (s : UnionFind) : Prop :=
  0 < s.ufFuel ∧
  (∀ k ∈ s.parents.map (fun kv => kv.1), (rootPure s.parents k s.ufFuel).isSome) ∧
  (∀ k ∈ s.parents.map (fun kv => kv.1), s.childRef k < s.nextObj ∧ s.queueRef k < s.nextObj)

/-- Decidable well-formedness check (used to discharge `WF` on concrete
states). -/
def wfCheck (s : UnionFind) : Bool :=
  decide (0 < s.ufFuel) &&
  (s.parents.map (fun kv => kv.1)).all (fun k => (rootPure s.parents k s.ufFuel).isSome) &&
  (s.parents.map (fun kv => kv.1)).all
    (fun k => decide (s.childRef k < s.nextObj) && decide (s.queueRef k < s.nextObj))

/-! ### Connectivity in the accepted-edge list, and forests -/

/-- One accepted edge joins `a` and `b` (in either orientation). -/
def edgeRel (E : List (Nat × Nat)) (a b : Nat) : Prop :=
  (a, b) ∈ E ∨ (b, a) ∈ E

/-- `a` and `b` are connected by a path of accepted edges. -/
def connectedEt (E : List (Nat × Nat)) (a b : Nat) : Prop :=
  Relation.ReflTransGen (edgeRel E) a b

/-- The edge list is a forest: each edge joins two nodes not already
connected by the earlier edges. -/
def IsForest (E : List (Nat × Nat)) : Prop :=
  ∀ i (h : i < E.length), ¬ connectedEt (E.take i) (E.get ⟨i, h⟩).1 (E.get ⟨i, h⟩).2

/-- Invariant B1's forward direction: nodes connected in the accepted-edge
list share a union-find root. -/
def ConnImp (st : EngineState) : Prop :=
  ∀ a b, connectedEt st.Et a b → rootD st.uf a = rootD st.uf b

/-- `x` is a key of `self.parents`. -/
def Registered (s : UnionFind) (x : Nat) : Prop :=
  alGet s.parents x ≠ none

/-- Number of distinct union-find roots among the nodes of `V`. -/
def compCount (V : List Nat) (s : UnionFind) : Nat :=
  (V.map (rootD s)).toFinset.card

/-- Candidate entries of a round queue mention only nodes of `V` (true of
the queues built in phase P1, which gather one `(v, vm, d)` per component
with `v, vm ∈ V`). -/
def EpOk (V : List Nat) (ep : PriorityQueue (Nat × Nat × ℚ)) : Prop :=
  ∀ e ∈ ep._queue, e.2.2.1 ∈ V ∧ e.2.2.2.1 ∈ V

/-- Index wellformedness of a queue: entry indexes are distinct and below
the queue's counter (guaranteed by construction, since `push` stamps the
strictly increasing `_index`). -/
def QWF {α : Type} (q : PriorityQueue α) : Prop :=
  (q._queue.map (fun e => e.2.1)).Nodup ∧ ∀ e ∈ q._queue, e.2.1 < q._index

/-- Forget the tie-breaking index of a heap entry: `(priority, item)`. -/
def projPI {α : Type} (e : Entry α) : ℚ × α := (e.1, e.2.2)

/-- `subgraphs.queues[root].push(item, priority)` (line 290 of the
initialisation loop): push onto the queue object referenced at `root`. -/
def pushQueue (s : UnionFind) (root : Nat) (item : Nat × Nat) (priority : ℚ) :
    UnionFind :=
  let rf := s.queueRef root
  { s with queueStore := fnUpdate s.queueStore rf ((s.queueStore rf).push item priority) }

/-! ### Concrete instances used by counterexamples and witnesses -/

/-- Four nodes: an accepted segment (0,0)-(2,0) and a candidate
(1,-1)-(1,1) crossing it properly. -/
def coords4 : Nat → ℚ × ℚ := fun n =>
  if n = 0 then (0, 0)
  else if n = 1 then (2, 0)
  else if n = 2 then (1, -1)
  else if n = 3 then (1, 1)
  else (0, 0)

/-- Initial engine state on nodes `[0, 1, 2, 3]`, every budget 100: the
union-find after the initialisation loop has registered each node. -/
def st40 : EngineState :=
  ⟨(registerAll (UnionFind.init (fun _ => 100)) [0, 1, 2, 3]).toOption.getD
      (UnionFind.init (fun _ => 100)), [], []⟩

/-- Round queue holding the single candidate `(0, 1, 1)`. -/
def ep41 : PriorityQueue (Nat × Nat × ℚ) := PriorityQueue.empty.push (0, 1, 1) 1

/-- State after committing `(0, 1, 1)` (edge accepted and recorded). -/
def c1s1 : EngineState := (commitLoop id coords4 st40 ep41 2).toOption.getD st40

/-- Round queue holding the single candidate `(2, 3, 1)`. -/
def ep42 : PriorityQueue (Nat × Nat × ℚ) := PriorityQueue.empty.push (2, 3, 1) 1

/-- State after the round that pops `(2, 3, 1)`: both budget tests pass, the
union is performed, and then `line_intersection` reports the crossing with
the accepted segment `(0, 1)`, so no edge is recorded. -/
def c1s2 : EngineState := (commitLoop id coords4 c1s1 ep42 2).toOption.getD c1s1

/-- Five nodes in generic position (no two committed segments cross except
at shared endpoints). -/
def coords5 : Nat → ℚ × ℚ := fun n =>
  if n = 0 then (0, 0)
  else if n = 1 then (0, 1)
  else if n = 2 then (3, 7)
  else if n = 3 then (-5, 3)
  else if n = 4 then (20, 20)
  else (0, 0)

/-- Node budgets `10, 10, 5, 1, 100` for the budget-staleness run. -/
def mv5 : Nat → ℚ := fun n =>
  if n = 0 then 10
  else if n = 1 then 10
  else if n = 2 then 5
  else if n = 3 then 1
  else if n = 4 then 100
  else 0

/-- Initial engine state on nodes `[0, 1, 2, 3, 4]` with budgets `mv5`. -/
def st50 : EngineState :=
  ⟨(registerAll (UnionFind.init mv5) [0, 1, 2, 3, 4]).toOption.getD
      (UnionFind.init mv5), [], []⟩

/-- One-candidate round queue. -/
def epOf (c : Nat × Nat × ℚ) : PriorityQueue (Nat × Nat × ℚ) :=
  PriorityQueue.empty.push c c.2.2

/-- After committing `(0, 1, 5)`: nodes 0 and 1 merge, `mv[0] = mv[1] = 15`. -/
def c2s1 : EngineState := (commitLoop id coords5 st50 (epOf (0, 1, 5)) 2).toOption.getD st50

/-- After committing `(2, 0, 1)`: root 1 absorbs 2, `mv[1] = mv[2] = 19`,
while `mv[0]` keeps the stale value 15. -/
def c2s2 : EngineState := (commitLoop id coords5 c2s1 (epOf (2, 0, 1)) 2).toOption.getD c2s1

/-- After committing `(0, 3, 1)`: the union reads the stale `mv[0] = 15`, so
the root budget drops to `mv[1] = 15` although the ledger value is 19; node
2 now carries the stale high value `mv[2] = 19 > 15`. -/
def c2s3 : EngineState := (commitLoop id coords5 c2s2 (epOf (0, 3, 1)) 2).toOption.getD c2s2

/-- After committing `(2, 4, 17)`: the solvency test reads the stale
`mv[2] = 19 ≥ 17` and accepts, although the root budget of 2's component is
`mv[1] = 15 < 17`. -/
def c2s4 : EngineState := (commitLoop id coords5 c2s3 (epOf (2, 4, 17)) 2).toOption.getD c2s3

/-- Two registered nodes with budgets 10 and 0, and one queued candidate in
node 0's component queue. -/
def c9uf : UnionFind :=
  pushQueue ((registerAll (UnionFind.init (fun n => if n = 0 then 10 else 0)) [0, 1]).toOption.getD
      (UnionFind.init (fun n => if n = 0 then 10 else 0))) 0 (0, 1) 1

/-- Engine state for the no-prune counterexample. -/
def c9st : EngineState := ⟨c9uf, [], []⟩

/-- Result of popping candidate `(0, 1, 5)` at `c9st`: roots differ,
`mv[0] = 10 ≥ 5 > 0 = mv[1]`, so the inner budget test fails and the step
changes nothing — in particular it does not pop node 0's component queue. -/
def c9st' : EngineState := (commitStep id coords5 c9st (0, 1, 5)).toOption.getD c9st

/-- Coordinates of the collinear-containment configuration: candidate
segment (0,0)-(1,0), accepted segment (-1,0)-(2,0). -/
def c8coords : Nat → ℚ × ℚ := fun n =>
  if n = 0 then (0, 0)
  else if n = 1 then (1, 0)
  else if n = 2 then (-1, 0)
  else (2, 0)

/-- Queue with one entry of priority 1 (item 10). -/
def c4q1 : PriorityQueue Nat := PriorityQueue.empty.push 10 1

/-- Queue with entries of priorities 0 (item 11) and 2 (item 12). -/
def c4q2 : PriorityQueue Nat := (PriorityQueue.empty.push 11 0).push 12 2

/-- The backing list right after `merge`'s drain loop, before the
`list(set(...))` cast. -/
def c4drained : List (Entry Nat) := (mergeDrain c4q1 c4q2 2).1._queue

/-- The merged queue when the set cast happens to enumerate in reverse
order (a legal enumeration of the set, since the entries are pairwise
distinct). -/
def c4merged : PriorityQueue Nat := (PriorityQueue.merge List.reverse c4q1 c4q2).1

/-- State after committing `(0, 1, 1)` at `st40` by a single `commitStep`
(used to witness the budget accounting). -/
def c2w : EngineState := (commitStep id coords4 st40 (0, 1, 1)).toOption.getD st40

/-- `Registered` is decidable (it is an association-list lookup). -/
instance (s : UnionFind) (x : Nat) : Decidable (Registered s x) :=
  decidable_of_iff (alGet s.parents x ≠ none) Iff.rfl

/-- `EpOk` is decidable (a bounded quantifier over the backing list). -/
instance (V : List Nat) (ep : PriorityQueue (Nat × Nat × ℚ)) : Decidable (EpOk V ep) :=
  decidable_of_iff (∀ e ∈ ep._queue, e.2.2.1 ∈ V ∧ e.2.2.2.1 ∈ V) Iff.rfl

/-- `QWF` is decidable. -/
instance {α : Type} [DecidableEq α] (q : PriorityQueue α) : Decidable (QWF q) := by
  unfold QWF
  infer_instance

/-! ## Lemmas: association lists -/

theorem alGet_alSet_self (l : List (Nat × Nat)) (k v : Nat) :
    alGet (alSet l k v) k = some v := by
  simp [alGet, alSet, List.find?]

theorem find?_filter_of_imp {α : Type} (p q : α → Bool)
    (h : ∀ x, p x = true → q x = true) :
    ∀ l : List α, (l.filter q).find? p = l.find? p := by
  intro l
  induction l with
  | nil => rfl
  | cons hd tl ih =>
    by_cases hq : q hd = true
    · rw [List.filter_cons_of_pos hq]
      by_cases hp : p hd = true
      · rw [List.find?_cons_of_pos _ hp, List.find?_cons_of_pos _ hp]
      · rw [List.find?_cons_of_neg _ (by simp [hp]), List.find?_cons_of_neg _ (by simp [hp]), ih]
    · have hp : ¬ p hd = true := fun hph => hq (h hd hph)
      rw [List.filter_cons_of_neg (by simp [hq]), List.find?_cons_of_neg _ (by simp [hp]), ih]

theorem alGet_alSet_ne (l : List (Nat × Nat)) (k v k' : Nat) (h : k' ≠ k) :
    alGet (alSet l k v) k' = alGet l k' := by
  unfold alGet alSet
  rw [List.find?_cons_of_neg _ (by simp [Ne.symm h])]
  rw [find?_filter_of_imp _ _ ?_]
  intro kv hkv
  simp only [decide_eq_true_eq] at hkv ⊢
  rw [hkv]
  exact h

theorem alGet_some_mem (l : List (Nat × Nat)) (z p : Nat) (h : alGet l z = some p) :
    z ∈ l.map (fun kv => kv.1) := by
  unfold alGet at h
  cases hf : l.find? (fun kv => kv.1 = z) with
  | none => simp [hf] at h
  | some kv =>
    have hmem := List.mem_of_find?_eq_some hf
    have hpred := List.find?_some hf
    have : kv.1 = z := by simpa using hpred
    exact this ▸ List.mem_map_of_mem _ hmem

theorem mem_keys_alSet (l : List (Nat × Nat)) (k v x : Nat) :
    x ∈ (alSet l k v).map (fun kv => kv.1) ↔ x = k ∨ x ∈ l.map (fun kv => kv.1) := by
  unfold alSet
  constructor
  · intro h
    simp only [List.map_cons, List.mem_cons] at h
    rcases h with h | h
    · exact Or.inl h
    · right
      simp only [List.mem_map] at h ⊢
      obtain ⟨kv, hkv, hx⟩ := h
      exact ⟨kv, List.mem_of_mem_filter hkv, hx⟩
  · intro h
    rcases h with rfl | h
    · simp
    · by_cases hxk : x = k
      · simp [hxk]
      · simp only [List.mem_map] at h
        obtain ⟨kv, hkv, hx⟩ := h
        simp only [List.map_cons, List.mem_cons]
        right
        simp only [List.mem_map]
        refine ⟨kv, List.mem_filter.2 ⟨hkv, ?_⟩, hx⟩
        simp [hx, hxk]

theorem alGet_none_of_not_mem (l : List (Nat × Nat)) (x : Nat)
    (h : x ∉ l.map (fun kv => kv.1)) : alGet l x = none := by
  cases hf : alGet l x with
  | none => rfl
  | some p => exact absurd (alGet_some_mem l x p hf) h

/-! ## Lemmas: root chains -/

theorem rootPure_mono (par : List (Nat × Nat)) :
    ∀ {n : Nat} (x r : Nat), rootPure par x n = some r →
      ∀ {m : Nat}, n ≤ m → rootPure par x m = some r := by
  intro n
  induction n with
  | zero => intro x r h; simp [rootPure] at h
  | succ n ih =>
    intro x r h m hm
    obtain ⟨m', rfl⟩ : ∃ m', m = m' + 1 := ⟨m - 1, by omega⟩
    unfold rootPure at h ⊢
    cases hg : alGet par x with
    | none => simp [hg] at h
    | some p =>
      simp only [hg] at h ⊢
      by_cases hp : p = x
      · simpa [hp] using h
      · simp only [hp, if_false] at h ⊢
        exact ih p r h (by omega)

theorem rootPure_det (par : List (Nat × Nat)) (x : Nat) {n m r r' : Nat}
    (h1 : rootPure par x n = some r) (h2 : rootPure par x m = some r') : r = r' := by
  have e1 := rootPure_mono par x r h1 (Nat.le_max_left n m)
  have e2 := rootPure_mono par x r' h2 (Nat.le_max_right n m)
  rw [e1] at e2
  exact Option.some_injective _ e2

theorem rootPure_none_of_unreg (par : List (Nat × Nat)) (x : Nat)
    (h : alGet par x = none) : ∀ n, rootPure par x n = none := by
  intro n
  cases n with
  | zero => rfl
  | succ n => simp [rootPure, h]

theorem rootPure_root_self (par : List (Nat × Nat)) :
    ∀ {n : Nat} (x r : Nat), rootPure par x n = some r → alGet par r = some r := by
  intro n
  induction n with
  | zero => intro x r h; simp [rootPure] at h
  | succ n ih =>
    intro x r h
    unfold rootPure at h
    cases hg : alGet par x with
    | none => simp [hg] at h
    | some p =>
      simp only [hg] at h
      by_cases hp : p = x
      · simp only [hp, if_pos rfl] at h
        obtain rfl : x = r := Option.some_injective _ h
        rwa [hp] at hg
      · simp only [hp, if_false] at h
        exact ih p r h

theorem rootPure_self_of_root (par : List (Nat × Nat)) (r : Nat)
    (h : alGet par r = some r) {n : Nat} (hn : 0 < n) : rootPure par r n = some r := by
  obtain ⟨m, rfl⟩ : ∃ m, n = m + 1 := ⟨n - 1, by omega⟩
  simp [rootPure, h]

theorem rootPure_step (par : List (Nat × Nat)) {x p : Nat} (h : alGet par x = some p)
    (hne : p ≠ x) {n r : Nat} (hr : rootPure par p n = some r) :
    rootPure par x (n + 1) = some r := by
  simp [rootPure, h, hne, hr]

theorem wfCheck_wf (s : UnionFind) (h : wfCheck s = true) : WF s := by
  unfold wfCheck at h
  simp only [Bool.and_eq_true, List.all_eq_true, Bool.and_eq_true, decide_eq_true_eq] at h
  exact ⟨h.1.1, fun k hk => by simpa using h.1.2 k hk, fun k hk => (h.2 k hk)⟩

theorem rootD_spec (s : UnionFind) (y : Nat) (hWF : WF s) (hy : Registered s y) :
    rootPure s.parents y s.ufFuel = some (rootD s y) := by
  unfold Registered at hy
  cases hg : alGet s.parents y with
  | none => exact absurd hg hy
  | some p =>
    have hmem := alGet_some_mem s.parents y p hg
    have := hWF.2.1 y hmem
    cases hr : rootPure s.parents y s.ufFuel with
    | none => rw [hr] at this; simp at this
    | some r => unfold rootD; rw [hr]; rfl

theorem rootD_unreg (s : UnionFind) (y : Nat) (hy : alGet s.parents y = none) :
    rootD s y = y := by
  unfold rootD
  rw [rootPure_none_of_unreg s.parents y hy]
  rfl

/-- Redirecting a node straight to its own root changes no root. -/
theorem rootPure_shortcut (par : List (Nat × Nat)) (a R : Nat) (ha : IsRoot par a R) :
    ∀ {n : Nat} (y r : Nat), rootPure par y n = some r →
      rootPure (alSet par a R) y n = some r := by
  intro n
  induction n with
  | zero => intro y r h; simp [rootPure] at h
  | succ n ih =>
    intro y r h
    have horig := h
    unfold rootPure at h
    cases hg : alGet par y with
    | none => simp [hg] at h
    | some p =>
      simp only [hg] at h
      by_cases hya : y = a
      · subst hya
        obtain ⟨m, hm⟩ := ha
        have hrR : r = R := rootPure_det par y horig hm
        subst hrR
        have hroot : alGet par r = some r := rootPure_root_self par y r horig
        unfold rootPure
        rw [alGet_alSet_self]
        by_cases hRa : r = y
        · subst hRa
          simp
        · simp only [hRa, if_false]
          have hn : 0 < n := by
            by_contra h0
            have : n = 0 := by omega
            subst this
            by_cases hp : p = y
            · simp only [hp, if_pos rfl] at h
              exact hRa (Option.some_injective _ h).symm
            · simp [hp, rootPure] at h
          have : alGet (alSet par y r) r = some r := by
            rw [alGet_alSet_ne _ _ _ _ hRa]
            exact hroot
          exact rootPure_self_of_root _ r this hn
      · unfold rootPure
        rw [alGet_alSet_ne _ _ _ _ hya, hg]
        by_cases hp : p = y
        · simpa [hp] using h
        · simp only [hp, if_false] at h ⊢
          exact ih p r h

/-- Linking the root `a` under the root `h0` maps every old root `a` to `h0`
and leaves the other roots unchanged (at one extra unit of fuel). -/
theorem rootPure_link (par : List (Nat × Nat)) (a h0 : Nat)
    (haa : alGet par a = some a) (hhh : alGet par h0 = some h0) (hne : a ≠ h0) :
    ∀ {n : Nat} (y r : Nat), rootPure par y n = some r →
      rootPure (alSet par a h0) y (n + 1) = some (if r = a then h0 else r) := by
  intro n
  induction n with
  | zero => intro y r h; simp [rootPure] at h
  | succ n ih =>
    intro y r h
    unfold rootPure at h
    cases hg : alGet par y with
    | none => simp [hg] at h
    | some p =>
      simp only [hg] at h
      by_cases hya : y = a
      · have hpa : p = a := by
          rw [hya, haa] at hg
          exact (Option.some_injective _ hg).symm
        have hpy : p = y := by rw [hpa, hya]
        rw [if_pos hpy] at h
        have hry : r = y := (Option.some_injective _ h).symm
        rw [hry, hya, if_pos rfl]
        unfold rootPure
        rw [alGet_alSet_self]
        have hne' : h0 ≠ a := Ne.symm hne
        simp only [hne', if_false]
        have hg0 : alGet (alSet par a h0) h0 = some h0 := by
          rw [alGet_alSet_ne _ _ _ _ (Ne.symm hne)]
          exact hhh
        exact rootPure_self_of_root _ h0 hg0 (by omega)
      · by_cases hp : p = y
        · simp only [hp, if_pos rfl] at h
          obtain rfl : y = r := Option.some_injective _ h
          unfold rootPure
          rw [alGet_alSet_ne _ _ _ _ hya, hg]
          simp [hp, hya]
        · simp only [hp, if_false] at h
          have := ih p r h
          unfold rootPure
          rw [alGet_alSet_ne _ _ _ _ hya, hg]
          simp only [hp, if_false]
          exact this

/-- Registering a fresh singleton does not disturb existing chains. -/
theorem rootPure_register (par : List (Nat × Nat)) (x : Nat)
    (hx : alGet par x = none) :
    ∀ {n : Nat} (y r : Nat), rootPure par y n = some r →
      rootPure (alSet par x x) y n = some r := by
  intro n
  induction n with
  | zero => intro y r h; simp [rootPure] at h
  | succ n ih =>
    intro y r h
    unfold rootPure at h
    cases hg : alGet par y with
    | none => simp [hg] at h
    | some p =>
      simp only [hg] at h
      have hyx : y ≠ x := fun hyx => by rw [hyx, hx] at hg; exact Option.noConfusion hg
      unfold rootPure
      rw [alGet_alSet_ne _ _ _ _ hyx, hg]
      by_cases hp : p = y
      · simpa [hp] using h
      · simp only [hp, if_false] at h ⊢
        exact ih p r h

/-- Success of the find loop of `__getitem__`, with all visited nodes
rooted at the returned root. -/
theorem findLoop_ok (par : List (Nat × Nat)) (R : Nat) :
    ∀ {n : Nat} (last root : Nat) (path : List Nat),
      rootPure par last n = some R → alGet par last = some root →
      (∀ a ∈ path, IsRoot par a R) →
      ∃ pth, findLoop par last root path n = .ok (R, pth) ∧ ∀ a ∈ pth, IsRoot par a R := by
  intro n
  induction n with
  | zero => intro last root path h; simp [rootPure] at h
  | succ n ih =>
    intro last root path h hg hpath
    unfold rootPure at h
    rw [hg] at h
    by_cases hr : root = last
    · simp only [hr, if_pos rfl] at h
      obtain rfl : last = R := Option.some_injective _ h
      refine ⟨path, ?_, hpath⟩
      unfold findLoop
      simp [hr]
    · simp only [hr, if_false] at h
      have hg2 : ∃ p2, alGet par root = some p2 := by
        cases n with
        | zero => simp [rootPure] at h
        | succ m =>
          unfold rootPure at h
          cases hgg : alGet par root with
          | none => rw [hgg] at h; exact Option.noConfusion h
          | some p2 => exact ⟨p2, rfl⟩
      obtain ⟨p2, hg2⟩ := hg2
      have hrootR : IsRoot par root R := ⟨n, h⟩
      have hconspath : ∀ a ∈ root :: path, IsRoot par a R := by
        intro a ha
        rcases List.mem_cons.1 ha with rfl | ha
        · exact hrootR
        · exact hpath a ha
      obtain ⟨pth, hok, hall⟩ := ih root p2 (root :: path) h hg2 hconspath
      refine ⟨pth, ?_, hall⟩
      unfold findLoop
      simp only [hr, if_false, hg2]
      exact hok

/-- Path compression preserves every chain (at unchanged fuel) and the
registration status of every node. -/
theorem compress_fold (R : Nat) :
    ∀ (pth : List Nat) (par : List (Nat × Nat)),
      (∀ a ∈ pth, IsRoot par a R) →
      (∀ y n r, rootPure par y n = some r →
        rootPure (pth.foldl (fun pr a => alSet pr a R) par) y n = some r) ∧
      (∀ y, alGet (pth.foldl (fun pr a => alSet pr a R) par) y = none ↔ alGet par y = none) := by
  intro pth
  induction pth with
  | nil => intro par hall; exact ⟨fun y n r h => h, fun y => Iff.rfl⟩
  | cons a pth ih =>
    intro par hall
    have haR : IsRoot par a R := hall a (List.mem_cons_self a pth)
    have hstep : ∀ y n r, rootPure par y n = some r →
        rootPure (alSet par a R) y n = some r :=
      fun y n r h => rootPure_shortcut par a R haR y r h
    have hrest : ∀ b ∈ pth, IsRoot (alSet par a R) b R := by
      intro b hb
      obtain ⟨m, hm⟩ := hall b (List.mem_cons_of_mem a hb)
      exact ⟨m, hstep b m R hm⟩
    obtain ⟨ih1, ih2⟩ := ih (alSet par a R) hrest
    constructor
    · intro y n r h
      simpa using ih1 y n r (hstep y n r h)
    · intro y
      rw [List.foldl_cons, ih2 y]
      constructor
      · intro hnone
        by_cases hya : y = a
        · subst hya
          rw [alGet_alSet_self] at hnone
          exact Option.noConfusion hnone
        · rwa [alGet_alSet_ne _ _ _ _ hya] at hnone
      · intro hnone
        have hya : y ≠ a := by
          intro hya
          subst hya
          obtain ⟨m, hm⟩ := haR
          cases m with
          | zero => simp [rootPure] at hm
          | succ m => unfold rootPure at hm; rw [hnone] at hm; exact Option.noConfusion hm
        rwa [alGet_alSet_ne _ _ _ _ hya]

theorem alGet_isSome_of_mem (l : List (Nat × Nat)) (z : Nat)
    (h : z ∈ l.map (fun kv => kv.1)) : (alGet l z).isSome := by
  simp only [List.mem_map] at h
  obtain ⟨kv, hkv, hz⟩ := h
  unfold alGet
  cases hf : l.find? (fun kv => kv.1 = z) with
  | some kv' => simp
  | none =>
    have := List.find?_eq_none.1 hf kv hkv
    simp [hz] at this

theorem rootD_eq_of_rootPure (s' : UnionFind) (y r : Nat)
    (h : rootPure s'.parents y s'.ufFuel = some r) : rootD s' y = r := by
  unfold rootD
  rw [h]
  rfl

/-- Full characterization of `__getitem__`: it succeeds on well-formed
states, returns the root, preserves every root and well-formedness, and
touches no satellite data of already-registered nodes nor any already
allocated object. -/
theorem getitem_spec (s : UnionFind) (x : Nat) (hWF : WF s) :
    ∃ s' : UnionFind, s.getitem x = .ok (rootD s x, s') ∧ WF s' ∧
      (∀ y, rootD s' y = rootD s y) ∧
      s'.ufFuel = s.ufFuel ∧ s'.nodeMv = s.nodeMv ∧ s.nextObj ≤ s'.nextObj ∧
      (∀ y, Registered s y → Registered s' y) ∧
      Registered s' x ∧
      (∀ y, Registered s y →
        s'.mv y = s.mv y ∧ s'.weights y = s.weights y ∧
        s'.childRef y = s.childRef y ∧ s'.queueRef y = s.queueRef y) ∧
      (∀ o, o < s.nextObj → s'.childStore o = s.childStore o ∧ s'.queueStore o = s.queueStore o) ∧
      (∀ y n r, rootPure s.parents y n = some r → rootPure s'.parents y n = some r) ∧
      (Registered s x → s'.mv = s.mv ∧ s'.weights = s.weights ∧ s'.childRef = s.childRef ∧
        s'.childStore = s.childStore ∧ s'.queueRef = s.queueRef ∧ s'.queueStore = s.queueStore ∧
        s'.nextObj = s.nextObj) := by
  cases hx : alGet s.parents x with
  | none =>
    have hxmem : x ∉ s.parents.map (fun kv => kv.1) := by
      intro hmem
      have := alGet_isSome_of_mem s.parents x hmem
      rw [hx] at this
      simp at this
    have hget : alGet (alSet s.parents x x) x = some x := alGet_alSet_self _ _ _
    refine ⟨{ s with
      parents := alSet s.parents x x
      weights := fnUpdate s.weights x 1
      mv := fnUpdate s.mv x (s.nodeMv x)
      childRef := fnUpdate s.childRef x s.nextObj
      childStore := fnUpdate s.childStore s.nextObj [x]
      queueRef := fnUpdate s.queueRef x (s.nextObj + 1)
      queueStore := fnUpdate s.queueStore (s.nextObj + 1) PriorityQueue.empty
      nextObj := s.nextObj + 2 }, ?_, ?_, ?_, rfl, rfl, by dsimp only; omega, ?_, ?_, ?_, ?_, ?_, ?_⟩
    · unfold UnionFind.getitem
      rw [hx, rootD_unreg s x hx]
    · refine ⟨hWF.1, ?_, ?_⟩
      · intro k hk
        rcases (mem_keys_alSet _ _ _ _).1 hk with rfl | hk
        · rw [rootPure_self_of_root _ k hget hWF.1]
          rfl
        · have := hWF.2.1 k hk
          cases hr : rootPure s.parents k s.ufFuel with
          | none => rw [hr] at this; simp at this
          | some r => rw [rootPure_register s.parents x hx k r hr]; rfl
      · intro k hk
        rcases (mem_keys_alSet _ _ _ _).1 hk with rfl | hk
        · simp [fnUpdate]
        · have hkx : k ≠ x := fun hkx => hxmem (hkx ▸ hk)
          have := hWF.2.2 k hk
          simp only [fnUpdate, hkx, if_false]
          omega
    · intro y
      by_cases hyx : y = x
      · subst hyx
        rw [rootD_unreg s y hx]
        exact rootD_eq_of_rootPure _ y y (rootPure_self_of_root _ y hget hWF.1)
      · cases hy : alGet s.parents y with
        | none =>
          rw [rootD_unreg s y hy]
          have : alGet (alSet s.parents x x) y = none := by
            rw [alGet_alSet_ne _ _ _ _ hyx]
            exact hy
          exact rootD_unreg _ y this
        | some p =>
          have hreg : Registered s y := by simp [Registered, hy]
          have hr := rootD_spec s y hWF hreg
          exact rootD_eq_of_rootPure _ y _ (rootPure_register s.parents x hx y _ hr)
    · intro y hy
      have hyx : y ≠ x := fun hyx => hy (hyx ▸ hx)
      unfold Registered
      rw [alGet_alSet_ne _ _ _ _ hyx]
      exact hy
    · simp [Registered, hget]
    · intro y hy
      have hyx : y ≠ x := fun hyx => hy (hyx ▸ hx)
      simp [fnUpdate, hyx]
    · intro o ho
      constructor
      · simp only [fnUpdate]
        have : o ≠ s.nextObj := by omega
        simp [this]
      · simp only [fnUpdate]
        have : o ≠ s.nextObj + 1 := by omega
        simp [this]
    · intro y n r h
      exact rootPure_register s.parents x hx y r h
    · intro hreg
      exact absurd hx hreg
  | some p =>
    have hreg : Registered s x := by simp [Registered, hx]
    have hroot := rootD_spec s x hWF hreg
    have hpath : ∀ a ∈ [x], IsRoot s.parents a (rootD s x) := by
      intro a ha
      rcases List.mem_cons.1 ha with rfl | ha
      · exact ⟨s.ufFuel, hroot⟩
      · simp at ha
    obtain ⟨pth, hok, hall⟩ := findLoop_ok s.parents (rootD s x) x p [x] hroot hx hpath
    obtain ⟨hpres, hkeys⟩ := compress_fold (rootD s x) pth s.parents hall
    refine ⟨{ s with parents := pth.foldl (fun pr a => alSet pr a (rootD s x)) s.parents },
      ?_, ?_, ?_, rfl, rfl, le_refl _, ?_, ?_, ?_, ?_, hpres, ?_⟩
    · unfold UnionFind.getitem
      rw [hx]
      dsimp only
      rw [hok]
      rfl
    · refine ⟨hWF.1, ?_, ?_⟩
      · intro k hk
        have hk2 : k ∈ s.parents.map (fun kv => kv.1) := by
          have h1 := alGet_isSome_of_mem _ k hk
          by_cases h2 : alGet s.parents k = none
          · rw [(hkeys k).2 h2] at h1
            simp at h1
          · cases h3 : alGet s.parents k with
            | none => exact absurd h3 h2
            | some q => exact alGet_some_mem _ k q h3
        have := hWF.2.1 k hk2
        cases hr : rootPure s.parents k s.ufFuel with
        | none => rw [hr] at this; simp at this
        | some r => rw [hpres k _ r hr]; rfl
      · intro k hk
        have hk2 : k ∈ s.parents.map (fun kv => kv.1) := by
          have h1 := alGet_isSome_of_mem _ k hk
          by_cases h2 : alGet s.parents k = none
          · rw [(hkeys k).2 h2] at h1
            simp at h1
          · cases h3 : alGet s.parents k with
            | none => exact absurd h3 h2
            | some q => exact alGet_some_mem _ k q h3
        exact hWF.2.2 k hk2
    · intro y
      cases hy : alGet s.parents y with
      | none =>
        rw [rootD_unreg s y hy]
        exact rootD_unreg _ y ((hkeys y).2 hy)
      | some q =>
        have hregy : Registered s y := by simp [Registered, hy]
        have hr := rootD_spec s y hWF hregy
        exact rootD_eq_of_rootPure _ y _ (hpres y _ _ hr)
    · intro y hy
      unfold Registered at hy ⊢
      intro hnone
      exact hy ((hkeys y).1 hnone)
    · unfold Registered
      intro hnone
      exact hreg ((hkeys x).1 hnone)
    · intro y hy
      exact ⟨rfl, rfl, rfl, rfl⟩
    · intro o ho
      exact ⟨rfl, rfl⟩
    · intro hregx
      exact ⟨rfl, rfl, rfl, rfl, rfl, rfl, rfl⟩

/-- Characterization of `union(g1, g2, d)` when the two roots differ: it
succeeds, the absorbed root `a` is redirected to the surviving root `h`, and
the budget entries of both old roots are set to `mv[g1] + mv[g2] - d`. -/
theorem union_spec (setOrder : List (Entry (Nat × Nat)) → List (Entry (Nat × Nat)))
    (s : UnionFind) (g1 g2 : Nat) (d : ℚ) (hWF : WF s)
    (hne : rootD s g1 ≠ rootD s g2) :
    ∃ s' a h, UnionFind.union setOrder s g1 g2 d = .ok s' ∧ WF s' ∧
      ((a = rootD s g1 ∧ h = rootD s g2) ∨ (a = rootD s g2 ∧ h = rootD s g1)) ∧
      a ≠ h ∧
      (∀ y, rootD s' y = if rootD s y = a then h else rootD s y) ∧
      (∀ y, Registered s y → Registered s' y) ∧
      (Registered s g1 → Registered s g2 →
        s'.mv h = s.mv g1 + s.mv g2 - d ∧ s'.mv a = s.mv g1 + s.mv g2 - d ∧
        (∀ y, y ≠ a → y ≠ h → s'.mv y = s.mv y)) := by
  obtain ⟨s1, hok1, hWF1, hroots1, hfuel1, hnodeMv1, hno1, hregp1, hregx1, hsat1, hst1, hrp1, hfull1⟩ :=
    getitem_spec s g1 hWF
  obtain ⟨s2, hok2, hWF2, hroots2, hfuel2, hnodeMv2, hno2, hregp2, hregx2, hsat2, hst2, hrp2, hfull2⟩ :=
    getitem_spec s1 g2 hWF1
  have hr2eq : rootD s1 g2 = rootD s g2 := hroots1 g2
  have hrootsc : ∀ y, rootD s2 y = rootD s y := fun y => (hroots2 y).trans (hroots1 y)
  -- the two roots, distinct
  set r1 := rootD s g1 with hr1def
  set r2 := rootD s g2 with hr2def
  -- g1 and g2 are registered in s2 with their original roots
  have hreg1s2 : Registered s2 g1 := hregp2 g1 hregx1
  have hreg2s2 : Registered s2 g2 := hregx2
  have hrootg1 : rootD s2 g1 = r1 := hrootsc g1
  have hrootg2 : rootD s2 g2 = r2 := hrootsc g2
  have hrp2g1 : rootPure s2.parents g1 s2.ufFuel = some r1 := by
    have := rootD_spec s2 g1 hWF2 hreg1s2
    rwa [hrootg1] at this
  have hrp2g2 : rootPure s2.parents g2 s2.ufFuel = some r2 := by
    have := rootD_spec s2 g2 hWF2 hreg2s2
    rwa [hrootg2] at this
  have haroot1 : alGet s2.parents r1 = some r1 := rootPure_root_self s2.parents g1 r1 hrp2g1
  have haroot2 : alGet s2.parents r2 = some r2 := rootPure_root_self s2.parents g2 r2 hrp2g2
  have hr1mem : r1 ∈ s2.parents.map (fun kv => kv.1) := alGet_some_mem _ r1 r1 haroot1
  have hr2mem : r2 ∈ s2.parents.map (fun kv => kv.1) := alGet_some_mem _ r2 r2 haroot2
  have hfuelpos : 0 < s2.ufFuel := hWF2.1
  -- common argument, parameterized by which root is absorbed
  have main : ∀ (a h : Nat), alGet s2.parents a = some a → alGet s2.parents h = some h →
      a ≠ h → a ∈ s2.parents.map (fun kv => kv.1) → h ∈ s2.parents.map (fun kv => kv.1) →
      ∀ (s' : UnionFind), s'.parents = alSet s2.parents a h → s'.ufFuel = s2.ufFuel + 1 →
      s'.nextObj = s2.nextObj →
      s'.childRef = fnUpdate s2.childRef a (s2.childRef h) →
      s'.queueRef = fnUpdate s2.queueRef a (s2.queueRef h) →
      WF s' ∧ (∀ y, rootD s' y = if rootD s y = a then h else rootD s y) ∧
        (∀ y, Registered s y → Registered s' y) := by
    intro a h haa hhh hah hamem hhmem s' hpar hfuel hnext hcr hqr
    have hlink : ∀ (y n r : Nat), rootPure s2.parents y n = some r →
        rootPure (alSet s2.parents a h) y (n + 1) = some (if r = a then h else r) :=
      fun y n r hh2 => rootPure_link s2.parents a h haa hhh hah y r hh2
    refine ⟨⟨by omega, ?_, ?_⟩, ?_, ?_⟩
    · intro k hk
      rw [hpar] at hk
      rcases (mem_keys_alSet _ _ _ _).1 hk with rfl | hk
      · have hself : rootPure s2.parents k s2.ufFuel = some k :=
          rootPure_self_of_root _ k haa hfuelpos
        have := hlink k _ k hself
        rw [hpar, hfuel]
        rw [this]
        rfl
      · have := hWF2.2.1 k hk
        cases hr : rootPure s2.parents k s2.ufFuel with
        | none => rw [hr] at this; simp at this
        | some r =>
          have := hlink k _ r hr
          rw [hpar, hfuel, this]
          rfl
    · intro k hk
      rw [hpar] at hk
      rw [hcr, hqr, hnext]
      rcases (mem_keys_alSet _ _ _ _).1 hk with rfl | hk
      · simp only [fnUpdate, if_pos rfl]
        exact hWF2.2.2 h hhmem
      · by_cases hka : k = a
        · subst hka
          simp only [fnUpdate, if_pos rfl]
          exact hWF2.2.2 h hhmem
        · simp only [fnUpdate, hka, if_false]
          exact hWF2.2.2 k hk
    · intro y
      by_cases hy : Registered s2 y
      · have hry := rootD_spec s2 y hWF2 hy
        have := hlink y _ _ hry
        have hgoal : rootD s' y = if rootD s2 y = a then h else rootD s2 y := by
          apply rootD_eq_of_rootPure
          rw [hpar, hfuel]
          exact this
        rw [hgoal, hrootsc y]
      · have hynone : alGet s2.parents y = none := by
          by_cases hz : alGet s2.parents y = none
          · exact hz
          · exact absurd hz hy
        have hya : y ≠ a := by
          rintro rfl
          rw [haa] at hynone
          exact Option.noConfusion hynone
        have hs'none : alGet s'.parents y = none := by
          rw [hpar, alGet_alSet_ne _ _ _ _ hya]
          exact hynone
        have hsnone : alGet s.parents y = none := by
          cases hz : alGet s.parents y with
          | none => rfl
          | some q =>
            have : Registered s y := by simp [Registered, hz]
            exact absurd (hregp2 y (hregp1 y this)) hy
        rw [rootD_unreg _ y hs'none, rootD_unreg s y hsnone, if_neg hya]
    · intro y hy
      have : Registered s2 y := hregp2 y (hregp1 y hy)
      unfold Registered at this ⊢
      rw [hpar]
      by_cases hya : y = a
      · subst hya
        rw [alGet_alSet_self]
        simp
      · rw [alGet_alSet_ne _ _ _ _ hya]
        exact this
  -- now unfold union and split on the heaviest test
  by_cases hH : s2.weights r1 < s2.weights r2 ∨ (s2.weights r1 = s2.weights r2 ∧ r1 < r2)
  · -- heaviest is r2; r1 is absorbed
    have hfilter : [r1, r2].filter (fun r => r ≠ r2) = [r1] := by
      simp [List.filter, hne]
    refine ⟨{ s2 with
      parents := alSet s2.parents r1 r2
      weights := fnUpdate s2.weights r2 (s2.weights r2 + s2.weights r1)
      mv := fnUpdate (fnUpdate s2.mv r2 (s2.mv g1 + s2.mv g2 - d)) r1 (s2.mv g1 + s2.mv g2 - d)
      childStore := fnUpdate s2.childStore (s2.childRef r2)
        (s2.childStore (s2.childRef r2) ++ s2.childStore (s2.childRef r1))
      childRef := fnUpdate s2.childRef r1 (s2.childRef r2)
      queueStore := fnUpdate (fnUpdate s2.queueStore (s2.queueRef r2)
          (PriorityQueue.merge setOrder (s2.queueStore (s2.queueRef r2))
            (s2.queueStore (s2.queueRef r1))).1) (s2.queueRef r1)
        (PriorityQueue.merge setOrder (s2.queueStore (s2.queueRef r2))
            (s2.queueStore (s2.queueRef r1))).2
      queueRef := fnUpdate s2.queueRef r1 (s2.queueRef r2)
      ufFuel := s2.ufFuel + 1 }, r1, r2, ?_, ?_⟩
    · unfold UnionFind.union
      rw [hok1]
      dsimp only
      rw [hok2]
      dsimp only
      rw [hr2eq, if_pos hH, hfilter]
    · have := main r1 r2 haroot1 haroot2 hne hr1mem hr2mem
        ({ s2 with
              parents := alSet s2.parents r1 r2
              weights := fnUpdate s2.weights r2 (s2.weights r2 + s2.weights r1)
              mv := fnUpdate (fnUpdate s2.mv r2 (s2.mv g1 + s2.mv g2 - d)) r1 (s2.mv g1 + s2.mv g2 - d)
              childStore := fnUpdate s2.childStore (s2.childRef r2)
                (s2.childStore (s2.childRef r2) ++ s2.childStore (s2.childRef r1))
              childRef := fnUpdate s2.childRef r1 (s2.childRef r2)
              queueStore := fnUpdate (fnUpdate s2.queueStore (s2.queueRef r2)
                  (PriorityQueue.merge setOrder (s2.queueStore (s2.queueRef r2))
                    (s2.queueStore (s2.queueRef r1))).1) (s2.queueRef r1)
                (PriorityQueue.merge setOrder (s2.queueStore (s2.queueRef r2))
                    (s2.queueStore (s2.queueRef r1))).2
              queueRef := fnUpdate s2.queueRef r1 (s2.queueRef r2)
              ufFuel := s2.ufFuel + 1 }) rfl rfl rfl rfl rfl
      obtain ⟨hwf', hroots', hregs'⟩ := this
      refine ⟨hwf', Or.inl ⟨rfl, rfl⟩, hne, hroots', hregs', ?_⟩
      intro hRg1 hRg2
      have hmveq : s2.mv = s.mv := by
        have e1 := (hfull1 hRg1).1
        have e2 := (hfull2 (hregp1 g2 hRg2)).1
        rw [e2, e1]
      have hr12 : r1 ≠ r2 := hne
      refine ⟨?_, ?_, ?_⟩
      · dsimp only
        simp only [fnUpdate, hr12.symm, if_false, if_pos rfl, hmveq]
        simp
      · dsimp only
        simp only [fnUpdate, if_pos rfl, hmveq]
        simp
      · intro y hya hyh
        dsimp only
        simp only [fnUpdate, hya, hyh, if_false, hmveq]
  · -- heaviest is r1; r2 is absorbed
    have hfilter : [r1, r2].filter (fun r => r ≠ r1) = [r2] := by
      simp [List.filter, Ne.symm hne]
    refine ⟨{ s2 with
      parents := alSet s2.parents r2 r1
      weights := fnUpdate s2.weights r1 (s2.weights r1 + s2.weights r2)
      mv := fnUpdate (fnUpdate s2.mv r1 (s2.mv g1 + s2.mv g2 - d)) r2 (s2.mv g1 + s2.mv g2 - d)
      childStore := fnUpdate s2.childStore (s2.childRef r1)
        (s2.childStore (s2.childRef r1) ++ s2.childStore (s2.childRef r2))
      childRef := fnUpdate s2.childRef r2 (s2.childRef r1)
      queueStore := fnUpdate (fnUpdate s2.queueStore (s2.queueRef r1)
          (PriorityQueue.merge setOrder (s2.queueStore (s2.queueRef r1))
            (s2.queueStore (s2.queueRef r2))).1) (s2.queueRef r2)
        (PriorityQueue.merge setOrder (s2.queueStore (s2.queueRef r1))
            (s2.queueStore (s2.queueRef r2))).2
      queueRef := fnUpdate s2.queueRef r2 (s2.queueRef r1)
      ufFuel := s2.ufFuel + 1 }, r2, r1, ?_, ?_⟩
    · unfold UnionFind.union
      rw [hok1]
      dsimp only
      rw [hok2]
      dsimp only
      rw [hr2eq, if_neg hH, hfilter]
    · have := main r2 r1 haroot2 haroot1 (Ne.symm hne) hr2mem hr1mem
        ({ s2 with
              parents := alSet s2.parents r2 r1
              weights := fnUpdate s2.weights r1 (s2.weights r1 + s2.weights r2)
              mv := fnUpdate (fnUpdate s2.mv r1 (s2.mv g1 + s2.mv g2 - d)) r2 (s2.mv g1 + s2.mv g2 - d)
              childStore := fnUpdate s2.childStore (s2.childRef r1)
                (s2.childStore (s2.childRef r1) ++ s2.childStore (s2.childRef r2))
              childRef := fnUpdate s2.childRef r2 (s2.childRef r1)
              queueStore := fnUpdate (fnUpdate s2.queueStore (s2.queueRef r1)
                  (PriorityQueue.merge setOrder (s2.queueStore (s2.queueRef r1))
                    (s2.queueStore (s2.queueRef r2))).1) (s2.queueRef r2)
                (PriorityQueue.merge setOrder (s2.queueStore (s2.queueRef r1))
                    (s2.queueStore (s2.queueRef r2))).2
              queueRef := fnUpdate s2.queueRef r2 (s2.queueRef r1)
              ufFuel := s2.ufFuel + 1 }) rfl rfl rfl rfl rfl
      obtain ⟨hwf', hroots', hregs'⟩ := this
      refine ⟨hwf', Or.inr ⟨rfl, rfl⟩, Ne.symm hne, hroots', hregs', ?_⟩
      intro hRg1 hRg2
      have hmveq : s2.mv = s.mv := by
        have e1 := (hfull1 hRg1).1
        have e2 := (hfull2 (hregp1 g2 hRg2)).1
        rw [e2, e1]
      have hr21 : r2 ≠ r1 := Ne.symm hne
      refine ⟨?_, ?_, ?_⟩
      · dsimp only
        simp only [fnUpdate, hr21.symm, if_false, if_pos rfl, hmveq]
        simp
      · dsimp only
        simp only [fnUpdate, if_pos rfl, hmveq]
        simp
      · intro y hya hyh
        dsimp only
        simp only [fnUpdate, hya, hyh, if_false, hmveq]

/-- Master case analysis for one commit-loop iteration: on well-formed
states the step succeeds, preserves well-formedness and registration, and
either leaves the accepted set and all roots unchanged, or (when both the
root and budget guards pass) merges the two distinct roots — appending the
edge to `Et` and the rtree exactly when `line_intersection` is silent. -/
theorem commitStep_spec (setOrder : List (Entry (Nat × Nat)) → List (Entry (Nat × Nat)))
    (coords : Nat → ℚ × ℚ) (st : EngineState) (c : Nat × Nat × ℚ)
    (hWF : WF st.uf) :
    ∃ st', commitStep setOrder coords st c = .ok st' ∧ WF st'.uf ∧
      (∀ y, Registered st.uf y → Registered st'.uf y) ∧
      ((st'.Et = st.Et ∧ st'.rtree = st.rtree ∧ (∀ y, rootD st'.uf y = rootD st.uf y))
        ∨ (∃ a h, rootD st.uf c.1 ≠ rootD st.uf c.2.1 ∧ a ≠ h ∧
            ((a = rootD st.uf c.1 ∧ h = rootD st.uf c.2.1) ∨
             (a = rootD st.uf c.2.1 ∧ h = rootD st.uf c.1)) ∧
            (∀ y, rootD st'.uf y = if rootD st.uf y = a then h else rootD st.uf y) ∧
            ((st'.Et = st.Et ∧ st'.rtree = st.rtree) ∨
             (st'.Et = st.Et ++ [(c.1, c.2.1)] ∧ st'.rtree = st.rtree ++ [(c.1, c.2.1)])))) := by
  obtain ⟨s1, hok1, hWF1, hroots1, hfuel1, hnodeMv1, hno1, hregp1, hregx1, hsat1, hst1, hrp1, hfull1⟩ :=
    getitem_spec st.uf c.1 hWF
  obtain ⟨s2, hok2, hWF2, hroots2, hfuel2, hnodeMv2, hno2, hregp2, hregx2, hsat2, hst2, hrp2, hfull2⟩ :=
    getitem_spec s1 c.2.1 hWF1
  have hroots21 : ∀ y, rootD s2 y = rootD st.uf y := fun y => (hroots2 y).trans (hroots1 y)
  have hregc : ∀ y, Registered st.uf y → Registered s2 y :=
    fun y hy => hregp2 y (hregp1 y hy)
  unfold commitStep
  dsimp only
  rw [hok1]
  dsimp only
  rw [hok2]
  dsimp only
  by_cases hc1 : rootD st.uf c.1 ≠ rootD s1 c.2.1 ∧ c.2.2 ≤ s2.mv c.1
  · rw [if_pos hc1]
    by_cases hc2 : c.2.2 ≤ s2.mv c.2.1
    · rw [if_pos hc2]
      have hneq2 : rootD s2 c.1 ≠ rootD s2 c.2.1 := by
        rw [hroots21 c.1, (hroots2 c.2.1).trans (hroots1 c.2.1)]
        have := hc1.1
        rwa [hroots1 c.2.1] at this
      obtain ⟨s3, a, h, hokU, hWF3, hahor, hane, hrootsU, hregU, hmvU⟩ :=
        union_spec setOrder s2 c.1 c.2.1 c.2.2 hWF2 hneq2
      rw [hokU]
      dsimp only
      have hne0 : rootD st.uf c.1 ≠ rootD st.uf c.2.1 := by
        have := hc1.1
        rwa [hroots1 c.2.1] at this
      have hahor0 : (a = rootD st.uf c.1 ∧ h = rootD st.uf c.2.1) ∨
          (a = rootD st.uf c.2.1 ∧ h = rootD st.uf c.1) := by
        rcases hahor with ⟨ha, hh⟩ | ⟨ha, hh⟩
        · exact Or.inl ⟨ha.trans (hroots21 c.1), hh.trans (hroots21 c.2.1)⟩
        · exact Or.inr ⟨ha.trans (hroots21 c.2.1), hh.trans (hroots21 c.1)⟩
      have hrootsU0 : ∀ y, rootD s3 y = if rootD st.uf y = a then h else rootD st.uf y := by
        intro y
        rw [hrootsU y, hroots21 y]
      have hregU0 : ∀ y, Registered st.uf y → Registered s3 y :=
        fun y hy => hregU y (hregc y hy)
      by_cases hli : line_intersection st.rtree c.1 c.2.1 coords
      · rw [if_pos hli]
        exact ⟨_, rfl, hWF3, hregU0,
          Or.inr ⟨a, h, hne0, hane, hahor0, hrootsU0, Or.inl ⟨rfl, rfl⟩⟩⟩
      · rw [if_neg hli]
        exact ⟨_, rfl, hWF3, hregU0,
          Or.inr ⟨a, h, hne0, hane, hahor0, hrootsU0, Or.inr ⟨rfl, rfl⟩⟩⟩
    · rw [if_neg hc2]
      exact ⟨_, rfl, hWF2, hregc, Or.inl ⟨rfl, rfl, hroots21⟩⟩
  · rw [if_neg hc1]
    cases hp : (s2.queueStore (s2.queueRef c.1)).pop with
    | none =>
      exact ⟨_, rfl, hWF2, hregc, Or.inl ⟨rfl, rfl, hroots21⟩⟩
    | some q =>
      refine ⟨_, rfl, ?_, ?_, Or.inl ⟨rfl, rfl, ?_⟩⟩
      · exact ⟨hWF2.1, hWF2.2.1, hWF2.2.2⟩
      · exact hregc
      · exact hroots21

/-- Budget bookkeeping of a committing step: when the popped candidate
`(u, v, d)` gets its edge appended, the code has checked `d ≤ mv[u]` and
`d ≤ mv[v]` — the entries stored at the nodes, not at their roots — and the
merged root's budget entry is set to `mv[u] + mv[v] - d`. -/
theorem commitStep_budget (setOrder : List (Entry (Nat × Nat)) → List (Entry (Nat × Nat)))
    (coords : Nat → ℚ × ℚ) (st : EngineState) (u v : Nat) (d : ℚ) (st' : EngineState)
    (hWF : WF st.uf) (hu : Registered st.uf u) (hv : Registered st.uf v)
    (hstep : commitStep setOrder coords st (u, v, d) = .ok st')
    (happ : st'.Et = st.Et ++ [(u, v)]) :
    d ≤ st.uf.mv u ∧ d ≤ st.uf.mv v ∧
      st'.uf.mv (rootD st'.uf u) = st.uf.mv u + st.uf.mv v - d := by
  obtain ⟨s1, hok1, hWF1, hroots1, hfuel1, hnodeMv1, hno1, hregp1, hregx1, hsat1, hst1, hrp1, hfull1⟩ :=
    getitem_spec st.uf u hWF
  obtain ⟨s2, hok2, hWF2, hroots2, hfuel2, hnodeMv2, hno2, hregp2, hregx2, hsat2, hst2, hrp2, hfull2⟩ :=
    getitem_spec s1 v hWF1
  have hmvu : s2.mv u = st.uf.mv u := by
    rw [(hsat2 u (hregp1 u hu)).1, (hsat1 u hu).1]
  have hmvv : s2.mv v = st.uf.mv v := by
    rw [(hsat2 v (hregp1 v hv)).1, (hsat1 v hv).1]
  have hreg2u : Registered s2 u := hregp2 u (hregp1 u hu)
  have hreg2v : Registered s2 v := hregp2 v (hregp1 v hv)
  unfold commitStep at hstep
  dsimp only at hstep
  rw [hok1] at hstep
  dsimp only at hstep
  rw [hok2] at hstep
  dsimp only at hstep
  by_cases hc1 : rootD st.uf u ≠ rootD s1 v ∧ d ≤ s2.mv u
  · rw [if_pos hc1] at hstep
    by_cases hc2 : d ≤ s2.mv v
    · rw [if_pos hc2] at hstep
      have hneq2 : rootD s2 u ≠ rootD s2 v := by
        rw [(hroots2 u).trans (hroots1 u), (hroots2 v).trans (hroots1 v)]
        have := hc1.1
        rwa [hroots1 v] at this
      obtain ⟨s3, a, h, hokU, hWF3, hahor, hane, hrootsU, hregU, hmvU⟩ :=
        union_spec setOrder s2 u v d hWF2 hneq2
      rw [hokU] at hstep
      dsimp only at hstep
      obtain ⟨hmv3h, hmv3a, hmv3other⟩ := hmvU hreg2u hreg2v
      have hrootU : rootD s3 u = h := by
        rw [hrootsU u]
        rcases hahor with ⟨ha, hh⟩ | ⟨ha, hh⟩
        · rw [if_pos ha.symm]
        · rw [if_neg ?_]
          · exact hh.symm
          · rw [← hh]
            exact fun hcon => hane hcon.symm
      by_cases hli : line_intersection st.rtree u v coords
      · rw [if_pos hli] at hstep
        have hEt : st'.Et = st.Et := by
          cases hstep
          rfl
        rw [hEt] at happ
        simp at happ
      · rw [if_neg hli] at hstep
        have hst'u : st'.uf = s3 := by
          cases hstep
          rfl
        refine ⟨?_, ?_, ?_⟩
        · rw [← hmvu]
          exact hc1.2
        · rw [← hmvv]
          exact hc2
        · rw [hst'u, hrootU, hmv3h, hmvu, hmvv]
    · rw [if_neg hc2] at hstep
      have hEt : st'.Et = st.Et := by
        cases hstep
        rfl
      rw [hEt] at happ
      simp at happ
  · rw [if_neg hc1] at hstep
    cases hp : (s2.queueStore (s2.queueRef u)).pop with
    | none =>
      rw [hp] at hstep
      have hEt : st'.Et = st.Et := by
        cases hstep
        rfl
      rw [hEt] at happ
      simp at happ
    | some q =>
      rw [hp] at hstep
      have hEt : st'.Et = st.Et := by
        cases hstep
        rfl
      rw [hEt] at happ
      simp at happ

/-- The prune behaviour of a non-committing step.  First part: when the
candidate is skipped because the roots coincide or `mv[u] < d`, the `else`
branch pops the queue referenced at `u` (a no-op when that queue is empty).
Second part: when the roots differ and `mv[u] ≥ d > mv[v]` — only the far
side is insolvent — nothing at all is popped: the accepted set, the rtree,
every component queue and every budget entry are unchanged. -/
theorem commitStep_prune (setOrder : List (Entry (Nat × Nat)) → List (Entry (Nat × Nat)))
    (coords : Nat → ℚ × ℚ) (st : EngineState) (u v : Nat) (d : ℚ)
    (hWF : WF st.uf) (hu : Registered st.uf u) :
    ((rootD st.uf u = rootD st.uf v ∨ st.uf.mv u < d) →
      ∃ st', commitStep setOrder coords st (u, v, d) = .ok st' ∧
        st'.Et = st.Et ∧ st'.rtree = st.rtree ∧
        (((st.uf.queueStore (st.uf.queueRef u)).pop = none ∧
            st'.uf.queueStore (st.uf.queueRef u) = st.uf.queueStore (st.uf.queueRef u)) ∨
          (∃ it q', (st.uf.queueStore (st.uf.queueRef u)).pop = some (it, q') ∧
            st'.uf.queueStore (st.uf.queueRef u) = q'))) ∧
    ((rootD st.uf u ≠ rootD st.uf v ∧ d ≤ st.uf.mv u ∧ st.uf.mv v < d) → Registered st.uf v →
      ∃ st', commitStep setOrder coords st (u, v, d) = .ok st' ∧
        st'.Et = st.Et ∧ st'.rtree = st.rtree ∧
        (∀ z, Registered st.uf z →
          st'.uf.queueStore (st'.uf.queueRef z) = st.uf.queueStore (st.uf.queueRef z)) ∧
        (∀ z, Registered st.uf z → st'.uf.mv z = st.uf.mv z) ∧
        (∀ y, rootD st'.uf y = rootD st.uf y)) := by
  obtain ⟨s1, hok1, hWF1, hroots1, hfuel1, hnodeMv1, hno1, hregp1, hregx1, hsat1, hst1, hrp1, hfull1⟩ :=
    getitem_spec st.uf u hWF
  obtain ⟨s2, hok2, hWF2, hroots2, hfuel2, hnodeMv2, hno2, hregp2, hregx2, hsat2, hst2, hrp2, hfull2⟩ :=
    getitem_spec s1 v hWF1
  have hroots21 : ∀ y, rootD s2 y = rootD st.uf y := fun y => (hroots2 y).trans (hroots1 y)
  have hmvu : s2.mv u = st.uf.mv u := by
    rw [(hsat2 u (hregp1 u hu)).1, (hsat1 u hu).1]
  have hqrU : s2.queueRef u = st.uf.queueRef u := by
    rw [(hsat2 u (hregp1 u hu)).2.2.2, (hsat1 u hu).2.2.2]
  have hqsU : ∀ o, o < st.uf.nextObj → s2.queueStore o = st.uf.queueStore o := by
    intro o ho
    rw [(hst2 o (lt_of_lt_of_le ho hno1)).2, (hst1 o ho).2]
  have hrefU : st.uf.queueRef u < st.uf.nextObj := by
    have humem : u ∈ st.uf.parents.map (fun kv => kv.1) := by
      unfold Registered at hu
      cases hg : alGet st.uf.parents u with
      | none => exact absurd hg hu
      | some p => exact alGet_some_mem _ u p hg
    exact (hWF.2.2 u humem).2
  have hq2 : s2.queueStore (s2.queueRef u) = st.uf.queueStore (st.uf.queueRef u) := by
    rw [hqrU, hqsU _ hrefU]
  constructor
  · intro hguard
    have hc1false : ¬ (rootD st.uf u ≠ rootD s1 v ∧ d ≤ s2.mv u) := by
      rcases hguard with heq | hlt
      · intro hcon
        apply hcon.1
        rw [hroots1 v]
        exact heq
      · intro hcon
        rw [hmvu] at hcon
        exact absurd hcon.2 (not_le.2 hlt)
    cases hp : (s2.queueStore (s2.queueRef u)).pop with
    | none =>
      refine ⟨⟨s2, st.Et, st.rtree⟩, ?_, rfl, rfl, ?_⟩
      · unfold commitStep
        dsimp only
        rw [hok1]
        dsimp only
        rw [hok2]
        dsimp only
        rw [if_neg hc1false, hp]
      · left
        constructor
        · rw [← hq2]
          exact hp
        · dsimp only
          exact hqsU _ hrefU
    | some q =>
      refine ⟨⟨{ s2 with queueStore := fnUpdate s2.queueStore (s2.queueRef u) q.2 },
        st.Et, st.rtree⟩, ?_, rfl, rfl, ?_⟩
      · unfold commitStep
        dsimp only
        rw [hok1]
        dsimp only
        rw [hok2]
        dsimp only
        rw [if_neg hc1false, hp]
      · right
        refine ⟨q.1, q.2, ?_, ?_⟩
        · rw [← hq2, hp]
        · dsimp only
          rw [← hqrU]
          simp [fnUpdate]
  · intro hguard hv
    have hmvv : s2.mv v = st.uf.mv v := by
      rw [(hsat2 v (hregp1 v hv)).1, (hsat1 v hv).1]
    have hc1true : rootD st.uf u ≠ rootD s1 v ∧ d ≤ s2.mv u := by
      constructor
      · rw [hroots1 v]
        exact hguard.1
      · rw [hmvu]
        exact hguard.2.1
    have hc2false : ¬ d ≤ s2.mv v := by
      rw [hmvv]
      exact not_le.2 hguard.2.2
    refine ⟨⟨s2, st.Et, st.rtree⟩, ?_, rfl, rfl, ?_, ?_, hroots21⟩
    · unfold commitStep
      dsimp only
      rw [hok1]
      dsimp only
      rw [hok2]
      dsimp only
      rw [if_pos hc1true, if_neg hc2false]
    · intro z hz
      dsimp only
      have hqz : s2.queueRef z = st.uf.queueRef z := by
        rw [(hsat2 z (hregp1 z hz)).2.2.2, (hsat1 z hz).2.2.2]
      have hzmem : z ∈ st.uf.parents.map (fun kv => kv.1) := by
        unfold Registered at hz
        cases hg : alGet st.uf.parents z with
        | none => exact absurd hg hz
        | some p => exact alGet_some_mem _ z p hg
      rw [hqz, hqsU _ (hWF.2.2 z hzmem).2]
    · intro z hz
      dsimp only
      rw [(hsat2 z (hregp1 z hz)).1, (hsat1 z hz).1]

/-! ## Lemmas: heapq permutation facts -/

theorem count_set {α : Type} [DecidableEq α] (l : List α) (i : Nat) (x : α)
    (h : i < l.length) (y : α) :
    (l.set i x).count y + (if l[i] = y then 1 else 0) =
      l.count y + (if x = y then 1 else 0) := by
  have hdecomp : l.take i ++ l[i] :: l.drop (i + 1) = l := by
    conv_rhs => rw [← List.take_append_drop i l]
    congr 1
    exact (List.drop_eq_getElem_cons h).symm
  rw [List.set_eq_take_cons_drop x h]
  conv_rhs => rw [← hdecomp]
  simp only [List.count_append, List.count_cons]
  by_cases h1 : l[i] = y <;> by_cases h2 : x = y <;>
    simp [h1, h2] <;> omega

theorem set_move_perm {α : Type} [DecidableEq α] (l : List α) (i j : Nat) (x : α)
    (hi : i < l.length) (hj : j < l.length) (hij : i ≠ j) :
    ((l.set i l[j]).set j x).Perm (l.set i x) := by
  rw [List.perm_iff_count]
  intro y
  have hlen : j < (l.set i l[j]).length := by simpa using hj
  have eq1 := count_set (l.set i l[j]) j x hlen y
  have eq2 := count_set l i (l[j]) hi y
  have eq3 := count_set l i x hi y
  have hget : (l.set i l[j])[j] = l[j] := by
    rw [List.getElem_set_ne (by omega)]
  rw [hget] at eq1
  omega

theorem siftdown_perm {α : Type} [DecidableEq α] (startpos : Nat) (newitem : Entry α) :
    ∀ (fuel pos : Nat) (heap : List (Entry α)), pos < heap.length →
      (siftdown startpos newitem fuel pos heap).Perm (heap.set pos newitem) := by
  intro fuel
  induction fuel with
  | zero => intro pos heap hpos; exact List.Perm.refl _
  | succ fuel ih =>
    intro pos heap hpos
    rw [siftdown]
    by_cases hsp : startpos < pos
    · rw [if_pos hsp]
      dsimp only
      have hpp : (pos - 1) / 2 < pos := by omega
      have hpplen : (pos - 1) / 2 < heap.length := lt_trans hpp hpos
      cases hget : heap[(pos - 1) / 2]? with
      | none =>
        simp only [hget]
        exact List.Perm.refl _
      | some parent =>
        simp only [hget]
        by_cases hlt : entLt newitem parent = true
        · rw [if_pos hlt]
          have hpar : heap[(pos - 1) / 2] = parent := by
            obtain ⟨hh, he⟩ := List.getElem?_eq_some_iff.1 hget
            exact he
          have ihh := ih ((pos - 1) / 2) (heap.set pos parent) (by simpa using hpplen)
          refine ihh.trans ?_
          rw [← hpar]
          exact set_move_perm heap pos ((pos - 1) / 2) newitem hpos hpplen (by omega)
        · rw [if_neg hlt]
    · rw [if_neg hsp]

theorem heappush_perm {α : Type} [DecidableEq α] (heap : List (Entry α)) (item : Entry α) :
    (heappush heap item).Perm (item :: heap) := by
  unfold heappush
  have hlen : heap.length < (heap ++ [item]).length := by simp
  have h1 := siftdown_perm 0 item (heap.length + 1) heap.length (heap ++ [item]) hlen
  have h2 : (heap ++ [item]).set heap.length item = heap ++ [item] := by
    rw [List.set_append_right _ _ (le_refl _)]
    simp
  rw [h2] at h1
  exact h1.trans (List.perm_append_singleton item heap)

theorem siftupLoop_perm {α : Type} [DecidableEq α] [Inhabited α]
    (endpos startpos : Nat) (newitem : Entry α) :
    ∀ (fuel pos : Nat) (heap : List (Entry α)), pos < heap.length → endpos ≤ heap.length →
      (siftupLoop endpos startpos newitem fuel pos heap).Perm (heap.set pos newitem) := by
  intro fuel
  induction fuel with
  | zero =>
    intro pos heap hpos hend
    exact siftdown_perm startpos newitem (pos + 1) pos heap hpos
  | succ fuel ih =>
    intro pos heap hpos hend
    rw [siftupLoop]
    dsimp only
    by_cases hcp : 2 * pos + 1 < endpos
    · rw [if_pos hcp]
      split
      · next hc =>
        have hlt2 : 2 * pos + 1 + 1 < endpos := by
          simp only [Bool.and_eq_true, decide_eq_true_eq] at hc
          exact hc.1
        have hcl : 2 * pos + 1 + 1 < heap.length := lt_of_lt_of_le hlt2 hend
        have hgetd : heap.getD (2 * pos + 1 + 1) default = heap[2 * pos + 1 + 1] :=
          List.getD_eq_getElem heap default hcl
        rw [hgetd]
        refine (ih _ _ (by simpa using hcl) (by simpa using hend)).trans ?_
        exact set_move_perm heap pos (2 * pos + 1 + 1) newitem hpos hcl (by omega)
      · next hc =>
        have hcl : 2 * pos + 1 < heap.length := lt_of_lt_of_le hcp hend
        have hgetd : heap.getD (2 * pos + 1) default = heap[2 * pos + 1] :=
          List.getD_eq_getElem heap default hcl
        rw [hgetd]
        refine (ih _ _ (by simpa using hcl) (by simpa using hend)).trans ?_
        exact set_move_perm heap pos (2 * pos + 1) newitem hpos hcl (by omega)
    · rw [if_neg hcp]
      exact siftdown_perm startpos newitem (pos + 1) pos heap hpos

theorem heappop_perm {α : Type} [DecidableEq α] [Inhabited α]
    (heap : List (Entry α)) (e : Entry α) (rest : List (Entry α))
    (h : heappop heap = some (e, rest)) : heap.Perm (e :: rest) := by
  unfold heappop at h
  cases hlast : heap.getLast? with
  | none => rw [hlast] at h; exact Option.noConfusion h
  | some lastelt =>
    rw [hlast] at h
    dsimp only at h
    have hne : heap ≠ [] := by
      intro hnil
      rw [hnil] at hlast
      simp at hlast
    have hheap : heap.dropLast ++ [lastelt] = heap := by
      rw [List.getLast?_eq_getLast heap hne] at hlast
      have hl : heap.getLast hne = lastelt := Option.some_injective _ hlast
      rw [← hl]
      exact List.dropLast_append_getLast hne
    by_cases hemp : heap.dropLast.isEmpty
    · rw [if_pos hemp] at h
      obtain ⟨he, hrest⟩ := Prod.mk.injEq .. ▸ Option.some_injective _ h
      have hdl : heap.dropLast = [] := by
        cases hd : heap.dropLast with
        | nil => rfl
        | cons a t => rw [hd] at hemp; simp [List.isEmpty] at hemp
      rw [← hheap, hdl, ← he, ← hrest]
      exact List.Perm.refl _
    · rw [if_neg hemp] at h
      have hdlne : heap.dropLast ≠ [] := by
        intro hnil
        rw [hnil] at hemp
        simp at hemp
      cases hd : heap.dropLast with
      | nil => exact absurd hd hdlne
      | cons x t =>
        obtain ⟨he, hrest⟩ := Prod.mk.injEq .. ▸ Option.some_injective _ h
        have hx : heap.dropLast.getD 0 default = x := by rw [hd]; rfl
        have hsetlen : (0 : Nat) < (heap.dropLast.set 0 lastelt).length := by
          rw [hd]; simp
        have hperm := siftupLoop_perm heap.dropLast.length 0 lastelt
          heap.dropLast.length 0 (heap.dropLast.set 0 lastelt) hsetlen (by simp)
        rw [List.set_set] at hperm
        have hrest2 : rest.Perm (heap.dropLast.set 0 lastelt) := by
          rw [← hrest]
          exact hperm
        have hstep1 : (e :: rest).Perm (x :: lastelt :: t) := by
          have hset : heap.dropLast.set 0 lastelt = lastelt :: t := by rw [hd]; rfl
          rw [← he, hx]
          exact (hrest2.cons x).trans (by rw [hset])
        have hstep2 : (x :: lastelt :: t).Perm (lastelt :: heap.dropLast) := by
          rw [hd]
          exact List.Perm.swap lastelt x t
        have hstep3 : heap.Perm (lastelt :: heap.dropLast) := by
          conv_lhs => rw [← hheap]
          exact List.perm_append_singleton lastelt heap.dropLast
        exact hstep3.trans (hstep2.symm.trans hstep1.symm)

theorem heappop_none_iff {α : Type} [Inhabited α] (heap : List (Entry α)) :
    heappop heap = none ↔ heap = [] := by
  constructor
  · intro h
    cases heap with
    | nil => rfl
    | cons a t =>
      exfalso
      rw [heappop] at h
      obtain ⟨x, hx⟩ : ∃ x, (a :: t).getLast? = some x :=
        ⟨(a :: t).getLast (by simp), List.getLast?_eq_getLast _ (by simp)⟩
      rw [hx] at h
      dsimp only at h
      by_cases hemp : (a :: t).dropLast.isEmpty <;> simp [hemp] at h
  · intro h
    rw [h]
    rfl

theorem heappop_length {α : Type} [DecidableEq α] [Inhabited α]
    (heap : List (Entry α)) (e : Entry α) (rest : List (Entry α))
    (h : heappop heap = some (e, rest)) : heap.length = rest.length + 1 := by
  have := (heappop_perm heap e rest h).length_eq
  simpa using this

theorem qwf_push {α : Type} [DecidableEq α] (q : PriorityQueue α) (item : α) (p : ℚ)
    (h : QWF q) : QWF (q.push item p) := by
  obtain ⟨hnodup, hbound⟩ := h
  have hperm := heappush_perm q._queue (p, q._index, item)
  constructor
  · have hmp : ((q.push item p)._queue.map (fun e => e.2.1)).Perm
        (((p, q._index, item) :: q._queue).map (fun e => e.2.1)) := hperm.map _
    rw [hmp.nodup_iff]
    simp only [List.map_cons]
    refine List.Nodup.cons ?_ hnodup
    intro hmem
    simp only [List.mem_map] at hmem
    obtain ⟨e, hemem, hidx⟩ := hmem
    exact absurd hidx (Nat.ne_of_lt (hbound e hemem))
  · intro e he
    have hmem : e ∈ (p, q._index, item) :: q._queue := hperm.mem_iff.1 he
    rcases List.mem_cons.1 hmem with rfl | hmem2
    · simp [PriorityQueue.push]
    · exact lt_trans (hbound e hmem2) (by simp [PriorityQueue.push])

theorem mergeDrain_spec {α : Type} [DecidableEq α] [Inhabited α] :
    ∀ (fuel : Nat) (sq oq : PriorityQueue α), oq._queue.length ≤ fuel →
      (mergeDrain sq oq fuel).2._queue = [] ∧
      ((mergeDrain sq oq fuel).1._queue.map projPI).Perm
        (sq._queue.map projPI ++ oq._queue.map projPI) ∧
      (QWF sq → QWF (mergeDrain sq oq fuel).1) := by
  intro fuel
  induction fuel with
  | zero =>
    intro sq oq hle
    have hnil : oq._queue = [] := List.length_eq_zero.1 (Nat.le_zero.1 hle)
    rw [mergeDrain, hnil]
    exact ⟨rfl, by simp, fun h => h⟩
  | succ fuel ih =>
    intro sq oq hle
    rw [mergeDrain]
    cases hp : heappop oq._queue with
    | none =>
      have hnil : oq._queue = [] := (heappop_none_iff _).1 hp
      rw [hnil]
      exact ⟨rfl, by simp, fun h => h⟩
    | some er =>
      obtain ⟨e, rest⟩ := er
      have hlen := heappop_length oq._queue e rest hp
      have hrest : rest.length ≤ fuel := by omega
      obtain ⟨ih1, ih2, ih3⟩ := ih (sq.push e.2.2 e.1) ⟨rest, oq._index⟩ hrest
      refine ⟨ih1, ?_, ?_⟩
      · refine ih2.trans ?_
        have hpushmap : ((sq.push e.2.2 e.1)._queue.map projPI).Perm
            (projPI e :: sq._queue.map projPI) := by
          have hm := (heappush_perm sq._queue (e.1, sq._index, e.2.2)).map projPI
          simpa [projPI] using hm
        have hoqmap : (oq._queue.map projPI).Perm (projPI e :: rest.map projPI) :=
          (heappop_perm oq._queue e rest hp).map projPI
        have hmid : ((projPI e :: sq._queue.map projPI) ++ rest.map projPI).Perm
            (sq._queue.map projPI ++ (projPI e :: rest.map projPI)) := by
          rw [List.cons_append]
          exact List.perm_middle.symm
        exact ((hpushmap.append_right _).trans hmid).trans (hoqmap.symm.append_left _)
      · intro hq
        exact ih3 (qwf_push sq e.2.2 e.1 hq)

theorem merge_spec {α : Type} [DecidableEq α] [Inhabited α]
    (setOrder : List (Entry α) → List (Entry α))
    (legal : ∀ l : List (Entry α), l.Nodup → (setOrder l).Perm l)
    (sq oq : PriorityQueue α) (hsq : QWF sq) :
    (PriorityQueue.merge setOrder sq oq).2._queue = [] ∧
    ((PriorityQueue.merge setOrder sq oq).1._queue.map projPI).Perm
      (sq._queue.map projPI ++ oq._queue.map projPI) := by
  obtain ⟨h1, h2, h3⟩ := mergeDrain_spec oq._queue.length sq oq (le_refl _)
  have hqwf := h3 hsq
  have hnodup : (mergeDrain sq oq oq._queue.length).1._queue.Nodup := hqwf.1.of_map
  have hperm := legal _ hnodup
  unfold PriorityQueue.merge
  exact ⟨h1, (hperm.map projPI).trans h2⟩

/-! ## Lemmas: connectivity, forests, component counting -/

theorem connectedEt_nil (a b : Nat) : connectedEt [] a b ↔ a = b := by
  constructor
  · intro h
    induction h with
    | refl => rfl
    | tail hab hbc ih =>
      exfalso
      rcases hbc with h1 | h1 <;> exact absurd h1 (List.not_mem_nil _)
  · intro h
    rw [h]
    exact Relation.ReflTransGen.refl

theorem edgeRel_mono {E E' : List (Nat × Nat)} (hsub : ∀ e ∈ E, e ∈ E') {a b : Nat}
    (h : edgeRel E a b) : edgeRel E' a b := by
  rcases h with h | h
  · exact Or.inl (hsub _ h)
  · exact Or.inr (hsub _ h)

theorem connectedEt_mono {E E' : List (Nat × Nat)} (hsub : ∀ e ∈ E, e ∈ E') {a b : Nat}
    (h : connectedEt E a b) : connectedEt E' a b := by
  induction h with
  | refl => exact Relation.ReflTransGen.refl
  | tail hab hbc ih => exact Relation.ReflTransGen.tail ih (edgeRel_mono hsub hbc)

theorem connected_lift (E : List (Nat × Nat)) (u v : Nat) (g : Nat → Nat)
    (hE : ∀ a b, connectedEt E a b → g a = g b) (huv : g u = g v) :
    ∀ a b, connectedEt (E ++ [(u, v)]) a b → g a = g b := by
  intro a b h
  induction h with
  | refl => rfl
  | @tail m c hab hbc ih =>
    refine ih.trans ?_
    rcases hbc with h1 | h1 <;> rcases List.mem_append.1 h1 with h2 | h2
    · exact hE _ _ (Relation.ReflTransGen.single (Or.inl h2))
    · obtain ⟨hm, hc⟩ := Prod.mk.injEq .. ▸ List.mem_singleton.1 h2
      rw [hm, hc]
      exact huv
    · exact hE _ _ (Relation.ReflTransGen.single (Or.inr h2))
    · obtain ⟨hc, hm⟩ := Prod.mk.injEq .. ▸ List.mem_singleton.1 h2
      rw [hm, hc]
      exact huv.symm

theorem isForest_append (E : List (Nat × Nat)) (u v : Nat)
    (hf : IsForest E) (hnc : ¬ connectedEt E u v) : IsForest (E ++ [(u, v)]) := by
  intro i hi
  have hi' : i < E.length + 1 := by simpa using hi
  by_cases hlt : i < E.length
  · have hget : (E ++ [(u, v)]).get ⟨i, hi⟩ = E.get ⟨i, hlt⟩ := by
      simp [List.getElem_append, hlt]
    have htake : (E ++ [(u, v)]).take i = E.take i :=
      List.take_append_of_le_length (le_of_lt hlt)
    rw [hget, htake]
    exact hf i hlt
  · have hieq : i = E.length := by omega
    have hget : (E ++ [(u, v)]).get ⟨i, hi⟩ = (u, v) := by
      subst hieq
      simp [List.getElem_append]
    have htake : (E ++ [(u, v)]).take i = E := by
      subst hieq
      rw [List.take_append_of_le_length (le_refl _), List.take_length]
    rw [hget, htake]
    exact hnc

theorem commitStep_invariants (setOrder : List (Entry (Nat × Nat)) → List (Entry (Nat × Nat)))
    (coords : Nat → ℚ × ℚ) (st : EngineState) (c : Nat × Nat × ℚ)
    (hWF : WF st.uf) (hci : ConnImp st) (hf : IsForest st.Et) :
    ∃ st', commitStep setOrder coords st c = .ok st' ∧ WF st'.uf ∧
      (∀ y, Registered st.uf y → Registered st'.uf y) ∧
      ConnImp st' ∧ IsForest st'.Et ∧
      (st'.Et = st.Et ∨ st'.Et = st.Et ++ [(c.1, c.2.1)]) := by
  obtain ⟨st', hok, hWF', hreg, hcases⟩ := commitStep_spec setOrder coords st c hWF
  refine ⟨st', hok, hWF', hreg, ?_⟩
  rcases hcases with ⟨hEt, hrt, hroots⟩ | ⟨a, h, hne, hah, hid, hroots, hEtc⟩
  · refine ⟨?_, ?_, Or.inl hEt⟩
    · intro x y hxy
      rw [hEt] at hxy
      rw [hroots x, hroots y]
      exact hci x y hxy
    · rw [hEt]
      exact hf
  · have hguv : (if rootD st.uf c.1 = a then h else rootD st.uf c.1) =
        (if rootD st.uf c.2.1 = a then h else rootD st.uf c.2.1) := by
      rcases hid with ⟨ha, hh⟩ | ⟨ha, hh⟩
      · have hr : rootD st.uf c.2.1 ≠ a := fun hcon => hne (hcon.trans ha).symm
        rw [if_pos ha.symm, if_neg hr, hh]
      · have hl : rootD st.uf c.1 ≠ a := fun hcon => hne (hcon.trans ha)
        rw [if_neg hl, if_pos ha.symm, hh]
    rcases hEtc with ⟨hEt, hrt⟩ | ⟨hEt, hrt⟩
    · refine ⟨?_, ?_, Or.inl hEt⟩
      · intro x y hxy
        rw [hEt] at hxy
        rw [hroots x, hroots y, hci x y hxy]
      · rw [hEt]
        exact hf
    · have hnc : ¬ connectedEt st.Et c.1 c.2.1 := fun hcon => hne (hci _ _ hcon)
      refine ⟨?_, ?_, Or.inr hEt⟩
      · intro x y hxy
        rw [hEt] at hxy
        rw [hroots x, hroots y]
        exact connected_lift st.Et c.1 c.2.1
          (fun z => if rootD st.uf z = a then h else rootD st.uf z)
          (fun p q hpq => by dsimp only; rw [hci p q hpq]) hguv x y hxy
      · rw [hEt]
        exact isForest_append st.Et c.1 c.2.1 hf hnc

theorem commitLoop_invariants (setOrder : List (Entry (Nat × Nat)) → List (Entry (Nat × Nat)))
    (coords : Nat → ℚ × ℚ) :
    ∀ (fuel : Nat) (st : EngineState) (ep : PriorityQueue (Nat × Nat × ℚ)),
      WF st.uf → ConnImp st → IsForest st.Et →
      ∃ st', commitLoop setOrder coords st ep fuel = .ok st' ∧ WF st'.uf ∧
        (∀ y, Registered st.uf y → Registered st'.uf y) ∧
        ConnImp st' ∧ IsForest st'.Et ∧ ∃ t, st'.Et = st.Et ++ t := by
  intro fuel
  induction fuel with
  | zero =>
    intro st ep hWF hci hf
    exact ⟨st, rfl, hWF, fun y hy => hy, hci, hf, [], by simp⟩
  | succ fuel ih =>
    intro st ep hWF hci hf
    rw [commitLoop]
    cases hp : ep.pop with
    | none => exact ⟨st, rfl, hWF, fun y hy => hy, hci, hf, [], by simp⟩
    | some cep =>
      obtain ⟨st2, hok, hWF2, hreg2, hci2, hf2, hext⟩ :=
        commitStep_invariants setOrder coords st cep.1 hWF hci hf
      dsimp only
      rw [hok]
      obtain ⟨st', hok', hWF', hreg', hci', hf', t, ht⟩ := ih st2 cep.2 hWF2 hci2 hf2
      refine ⟨st', hok', hWF', fun y hy => hreg' y (hreg2 y hy), hci', hf', ?_⟩
      rcases hext with hE | hE
      · exact ⟨t, by rw [ht, hE]⟩
      · exact ⟨(cep.1.1, cep.1.2.1) :: t, by rw [ht, hE]; simp⟩

theorem compCount_congr (V : List Nat) (s s2 : UnionFind)
    (h : ∀ y, rootD s2 y = rootD s y) : compCount V s2 = compCount V s := by
  unfold compCount
  congr 2
  exact List.map_congr_left (fun y _ => h y)

theorem compCount_union (V : List Nat) (s s2 : UnionFind) (a h : Nat)
    (hne : a ≠ h)
    (hroots : ∀ y, rootD s2 y = if rootD s y = a then h else rootD s y)
    (u : Nat) (hu : u ∈ V) (hua : rootD s u = a)
    (v : Nat) (hv : v ∈ V) (hvh : rootD s v = h) :
    compCount V s2 + 1 = compCount V s := by
  classical
  have hmap : V.map (rootD s2) = (V.map (rootD s)).map (fun z => if z = a then h else z) := by
    rw [List.map_map]
    exact List.map_congr_left (fun y _ => hroots y)
  have hS : (V.map (rootD s2)).toFinset =
      ((V.map (rootD s)).toFinset).image (fun z => if z = a then h else z) := by
    rw [hmap]
    ext x
    simp only [List.mem_toFinset, List.mem_map, Finset.mem_image]
  have haS : a ∈ (V.map (rootD s)).toFinset := by
    rw [List.mem_toFinset]
    exact List.mem_map.2 ⟨u, hu, hua⟩
  have hhS : h ∈ (V.map (rootD s)).toFinset := by
    rw [List.mem_toFinset]
    exact List.mem_map.2 ⟨v, hv, hvh⟩
  have himg : ((V.map (rootD s)).toFinset).image (fun z => if z = a then h else z) =
      ((V.map (rootD s)).toFinset).erase a := by
    ext x
    simp only [Finset.mem_image, Finset.mem_erase]
    constructor
    · rintro ⟨y, hy, hfy⟩
      by_cases hya : y = a
      · rw [hya, if_pos rfl] at hfy
        exact ⟨hfy ▸ (Ne.symm hne), hfy ▸ hhS⟩
      · rw [if_neg hya] at hfy
        exact ⟨hfy ▸ hya, hfy ▸ hy⟩
    · rintro ⟨hxa, hx⟩
      exact ⟨x, hx, if_neg hxa⟩
  have hcard : compCount V s2 = compCount V s - 1 := by
    unfold compCount
    rw [hS, himg, Finset.card_erase_of_mem haS]
  have hpos : 0 < compCount V s := Finset.card_pos.2 ⟨a, haS⟩
  omega

theorem compCount_pos (V : List Nat) (s : UnionFind) (hV : V ≠ []) :
    0 < compCount V s := by
  refine Finset.card_pos.2 ?_
  cases V with
  | nil => exact absurd rfl hV
  | cons x t => exact ⟨rootD s x, by simp⟩

theorem compCount_le (V : List Nat) (s : UnionFind) : compCount V s ≤ V.length := by
  calc (V.map (rootD s)).toFinset.card ≤ (V.map (rootD s)).length :=
        List.toFinset_card_le _
    _ = V.length := List.length_map _ _

theorem pop_epok (V : List Nat) (ep : PriorityQueue (Nat × Nat × ℚ))
    (hep : EpOk V ep) (c : (Nat × Nat × ℚ) × PriorityQueue (Nat × Nat × ℚ))
    (h : ep.pop = some c) : (c.1.1 ∈ V ∧ c.1.2.1 ∈ V) ∧ EpOk V c.2 := by
  unfold PriorityQueue.pop at h
  cases hp : heappop ep._queue with
  | none => rw [hp] at h; exact Option.noConfusion h
  | some er =>
    rw [hp] at h
    obtain ⟨e, rest⟩ := er
    dsimp only [Option.map] at h
    have hc : c = (e.2.2, ⟨rest, ep._index⟩) := (Option.some_injective _ h).symm
    have hperm := heappop_perm ep._queue e rest hp
    have hmem : e ∈ ep._queue := hperm.mem_iff.2 (List.mem_cons_self _ _)
    constructor
    · rw [hc]
      exact hep e hmem
    · intro x hx
      rw [hc] at hx
      exact hep x (hperm.mem_iff.2 (List.mem_cons_of_mem _ hx))

theorem commitLoop_count (setOrder : List (Entry (Nat × Nat)) → List (Entry (Nat × Nat)))
    (coords : Nat → ℚ × ℚ) (V : List Nat) :
    ∀ (fuel : Nat) (st : EngineState) (ep : PriorityQueue (Nat × Nat × ℚ)),
      WF st.uf → EpOk V ep →
      ∃ st', commitLoop setOrder coords st ep fuel = .ok st' ∧
        st'.Et.length + compCount V st'.uf ≤ st.Et.length + compCount V st.uf := by
  intro fuel
  induction fuel with
  | zero =>
    intro st ep hWF hep
    exact ⟨st, rfl, le_refl _⟩
  | succ fuel ih =>
    intro st ep hWF hep
    rw [commitLoop]
    cases hp : ep.pop with
    | none => exact ⟨st, rfl, le_refl _⟩
    | some cep =>
      obtain ⟨⟨hu, hv⟩, hep2⟩ := pop_epok V ep hep cep hp
      obtain ⟨st2, hok, hWF2, hreg2, hcases⟩ := commitStep_spec setOrder coords st cep.1 hWF
      dsimp only
      rw [hok]
      obtain ⟨st', hok', hle'⟩ := ih st2 cep.2 hWF2 hep2
      refine ⟨st', hok', le_trans hle' ?_⟩
      rcases hcases with ⟨hEt, hrt, hroots⟩ | ⟨a, h, hne, hah, hid, hroots, hEtc⟩
      · rw [hEt, compCount_congr V st.uf st2.uf hroots]
      · have hcc : compCount V st2.uf + 1 = compCount V st.uf := by
          rcases hid with ⟨ha, hh⟩ | ⟨ha, hh⟩
          · exact compCount_union V st.uf st2.uf a h hah hroots
              cep.1.1 hu ha.symm cep.1.2.1 hv hh.symm
          · exact compCount_union V st.uf st2.uf a h hah hroots
              cep.1.2.1 hv ha.symm cep.1.1 hu hh.symm
        rcases hEtc with ⟨hEt, hrt⟩ | ⟨hEt, hrt⟩
        · rw [hEt]
          omega
        · rw [hEt]
          simp only [List.length_append, List.length_singleton]
          omega

/-! ## General helpers for the claim theorems -/

/-- A node labelling constant on every accepted edge is constant on connected
components. -/
theorem connected_invariant (E : List (Nat × Nat)) (g : Nat → Nat)
    (hE : ∀ a b, edgeRel E a b → g a = g b) :
    ∀ a b, connectedEt E a b → g a = g b := by
  intro a b h
  induction h with
  | refl => rfl
  | tail hab hbc ih => exact ih.trans (hE _ _ hbc)

/-- The literal `modBoruvka` raises on every input: `np.row_stack` raises
`ValueError` on an empty node list, and otherwise the initialisation loop's
first `FNNd` call raises `NameError` (`k_cache` is undefined), so the round
loop is dead code. -/
theorem modBoruvka_raises (V : List Nat) (coords : Nat → ℚ × ℚ) :
    ∃ e, modBoruvka V coords = .error e := by
  cases V with
  | nil => exact ⟨.valueError, rfl⟩
  | cons v t => exact ⟨.nameError, rfl⟩

/-! ## The claims -/

/-- C1 (amended): the forward direction of invariant B1 is preserved by the
commit loop — on a well-formed state whose accepted edges connect only
same-root nodes and form a forest, the loop succeeds and in the final state
any two nodes connected in `Et` share a union-find root.  (The stated
converse is false: see the counterexample.) -/
theorem c1_theorem (setOrder : List (Entry (Nat × Nat)) → List (Entry (Nat × Nat)))
    (coords : Nat → ℚ × ℚ) (fuel : Nat) (st : EngineState)
    (ep : PriorityQueue (Nat × Nat × ℚ))
    (hWF : WF st.uf) (hci : ConnImp st) (hf : IsForest st.Et) :
    ∃ st', commitLoop setOrder coords st ep fuel = .ok st' ∧ ConnImp st' := by
  obtain ⟨st', h1, _, _, h4, _, _⟩ :=
    commitLoop_invariants setOrder coords fuel st ep hWF hci hf
  exact ⟨st', h1, h4⟩

/-- Witness for C1: the one-candidate run on four nodes from the freshly
registered state. -/
theorem c1_witness :
    ∃ st', commitLoop id coords4 st40 ep41 2 = .ok st' ∧ ConnImp st' :=
  c1_theorem id coords4 2 st40 ep41 (wfCheck_wf st40.uf (by decide))
    (fun a b h => by rw [(connectedEt_nil a b).1 h])
    (fun i hi => absurd hi (Nat.not_lt_zero i))

/-- Counterexample to C1 as stated: after the round that pops `(2, 3, 1)`
the union has merged the components of 2 and 3 (the roots coincide), but
`line_intersection` rejected the edge, so `Et` records only `(0, 1)` and no
path connects 2 and 3. -/
theorem c1_counterexample :
    c1s2.Et = [(0, 1)] ∧
    rootD c1s2.uf 2 = rootD c1s2.uf 3 ∧
    ¬ connectedEt c1s2.Et 2 3 := by
  have hEt : c1s2.Et = [(0, 1)] := by decide
  refine ⟨hEt, by decide, ?_⟩
  rw [hEt]
  intro hcon
  have h23 := connected_invariant [(0, 1)] (fun n => if n ≤ 1 then 0 else n)
    (by
      intro a b hab
      rcases hab with h | h
      · obtain ⟨ha, hb⟩ := Prod.mk.injEq .. ▸ List.mem_singleton.1 h
        rw [ha, hb]
        decide
      · obtain ⟨hb, ha⟩ := Prod.mk.injEq .. ▸ List.mem_singleton.1 h
        rw [ha, hb]
        decide) 2 3 hcon
  simp at h23

/-- C2 (amended): for every committed edge the budget test and the merged
budget read `mv` at the argument nodes `u` and `v` — which may hold stale
copies of their components' root budgets — not at the roots: at the moment
of commit `d ≤ mv[u]` and `d ≤ mv[v]`, and afterwards the merged root's
budget is `mv[u] + mv[v] − d`. -/
theorem c2_theorem (setOrder : List (Entry (Nat × Nat)) → List (Entry (Nat × Nat)))
    (coords : Nat → ℚ × ℚ) (st : EngineState) (u v : Nat) (d : ℚ) (st' : EngineState)
    (hWF : WF st.uf) (hu : Registered st.uf u) (hv : Registered st.uf v)
    (hstep : commitStep setOrder coords st (u, v, d) = .ok st')
    (happ : st'.Et = st.Et ++ [(u, v)]) :
    d ≤ st.uf.mv u ∧ d ≤ st.uf.mv v ∧
      st'.uf.mv (rootD st'.uf u) = st.uf.mv u + st.uf.mv v - d :=
  commitStep_budget setOrder coords st u v d st' hWF hu hv hstep happ

/-- Witness for C2: committing `(0, 1, 1)` on the fresh four-node state. -/
theorem c2_witness :
    (1 : ℚ) ≤ st40.uf.mv 0 ∧ (1 : ℚ) ≤ st40.uf.mv 1 ∧
      c2w.uf.mv (rootD c2w.uf 0) = st40.uf.mv 0 + st40.uf.mv 1 - 1 :=
  c2_theorem id coords4 st40 0 1 1 c2w (wfCheck_wf st40.uf (by decide))
    (by decide) (by decide) rfl (by decide)

/-- Counterexample to C2 as stated: in the staleness run, the committed edge
`(2, 4)` of length 17 is accepted although the root budget of 2's component
is only 15, and the merged root budget (102) differs from the sum of the two
root budgets minus the length (98). -/
theorem c2_counterexample :
    c2s4.Et = c2s3.Et ++ [(2, 4)] ∧
    c2s3.uf.mv (rootD c2s3.uf 2) < 17 ∧
    c2s4.uf.mv (rootD c2s4.uf 2) ≠
      c2s3.uf.mv (rootD c2s3.uf 2) + c2s3.uf.mv (rootD c2s3.uf 4) - 17 :=
  ⟨by decide, by decide, by decide⟩

/-- C3: the commit loop keeps the accepted-edge list a forest, and every
edge it appends joins two nodes whose union-find roots were distinct
immediately before that step. -/
theorem c3_theorem (setOrder : List (Entry (Nat × Nat)) → List (Entry (Nat × Nat)))
    (coords : Nat → ℚ × ℚ) (fuel : Nat) (st : EngineState)
    (ep : PriorityQueue (Nat × Nat × ℚ))
    (hWF : WF st.uf) (hci : ConnImp st) (hf : IsForest st.Et) :
    (∃ st', commitLoop setOrder coords st ep fuel = .ok st' ∧ IsForest st'.Et) ∧
    (∀ st' c, commitStep setOrder coords st c = .ok st' →
      st'.Et = st.Et ++ [(c.1, c.2.1)] → rootD st.uf c.1 ≠ rootD st.uf c.2.1) := by
  constructor
  · obtain ⟨st', h1, _, _, _, h5, _⟩ :=
      commitLoop_invariants setOrder coords fuel st ep hWF hci hf
    exact ⟨st', h1, h5⟩
  · intro st' c hstep happ
    obtain ⟨st2, hok, _, _, hcases⟩ := commitStep_spec setOrder coords st c hWF
    have heq : st2 = st' := by
      have h := hok.symm.trans hstep
      injection h
    subst heq
    rcases hcases with ⟨hEt, _, _⟩ | ⟨a, h, hne, _, _, _, _⟩
    · exact absurd (hEt.symm.trans happ) (by simp)
    · exact hne

/-- Witness for C3: the four-node single-candidate run. -/
theorem c3_witness :
    ∃ st', commitLoop id coords4 st40 ep41 2 = .ok st' ∧ IsForest st'.Et :=
  (c3_theorem id coords4 2 st40 ep41 (wfCheck_wf st40.uf (by decide))
    (fun a b h => by rw [(connectedEt_nil a b).1 h])
    (fun i hi => absurd hi (Nat.not_lt_zero i))).1

/-- C4 (amended): `merge(other)` empties `other` and leaves the surviving
queue holding exactly the `(priority, item)` multiset of both queues, for
every legal enumeration order of the `set` cast; the heap arrangement,
however, is not restored, so minimality of subsequent `top`/`pop` is not
guaranteed (see the counterexample). -/
theorem c4_theorem {α : Type} [DecidableEq α] [Inhabited α]
    (setOrder : List (Entry α) → List (Entry α))
    (legal : ∀ l : List (Entry α), l.Nodup → (setOrder l).Perm l)
    (sq oq : PriorityQueue α) (hsq : QWF sq) :
    (PriorityQueue.merge setOrder sq oq).2._queue = [] ∧
    ((PriorityQueue.merge setOrder sq oq).1._queue.map projPI).Perm
      (sq._queue.map projPI ++ oq._queue.map projPI) :=
  merge_spec setOrder legal sq oq hsq

/-- Witness for C4: merging the two concrete queues under the identity
enumeration order. -/
theorem c4_witness :
    (PriorityQueue.merge id c4q1 c4q2).2._queue = [] ∧
    ((PriorityQueue.merge id c4q1 c4q2).1._queue.map projPI).Perm
      (c4q1._queue.map projPI ++ c4q2._queue.map projPI) :=
  c4_theorem id (fun l _ => List.Perm.refl l) c4q1 c4q2 (by decide)

/-- Counterexample to C4 as stated: when the set cast enumerates in reverse
order (a legal enumeration, guaranteed by `List.reverse_perm`), the merged
queue's `top` returns item 12 — the head entry has priority 2 — although an
entry of priority 0 (item 11) is present, so `top` is not minimal. -/
theorem c4_counterexample :
    (∀ l : List (Entry Nat), l.Nodup → l.reverse.Perm l) ∧
    c4merged.top = some 12 ∧
    c4merged._queue.head? = some (2, 2, 12) ∧
    (0, 1, 11) ∈ c4merged._queue ∧ (0 : ℚ) < 2 :=
  ⟨fun l _ => l.reverse_perm, by decide, by decide, by decide, by decide⟩

/-- C5: every `FNNd` call raises `NameError` — the statement
`k = k_cache[str(b)] if str(b) in k_cache else 2` reads the module-level
name `k_cache`, which is never defined — so no nearest-neighbour result is
ever returned and no remembered `k` is ever updated. -/
theorem c5_theorem (kdtree : List (ℚ × ℚ)) (A : List Nat) (b : ℚ × ℚ) :
    FNNd kdtree A b = .error .nameError := rfl

/-- C6: the haversine helpers never compute a distance: the `memoize`
decorator's body has no `return`, so `get_hav_distance` is `None` and
`hav_dist` raises `TypeError` on every call; even undecorated, the body's
first statement reads the unbound name `pi` and would raise `NameError`. -/
theorem c6_theorem :
    (∀ p q : ℚ × ℚ, hav_dist p q = .error .typeError) ∧
    get_hav_distance = none ∧
    (∀ lat lon plat plon : ℚ, get_hav_distance_body lat lon plat plon = .error .nameError) :=
  ⟨fun p q => rfl, rfl, fun lat lon plat plon => rfl⟩

/-- C7 (amended): the literal `modBoruvka` raises before the first round
(see the counterexample); for the commit loop started on a well-formed state
with no accepted edges, over a round queue whose candidates mention only
nodes of `V`, the loop succeeds, the accepted-edge list grows only by
appends, and its final length is at most `|V| − 1`. -/
theorem c7_theorem (setOrder : List (Entry (Nat × Nat)) → List (Entry (Nat × Nat)))
    (coords : Nat → ℚ × ℚ) (V : List Nat) (fuel : Nat) (st : EngineState)
    (ep : PriorityQueue (Nat × Nat × ℚ))
    (hWF : WF st.uf) (hep : EpOk V ep) (hV : V ≠ []) (hEt : st.Et = []) :
    ∃ st', commitLoop setOrder coords st ep fuel = .ok st' ∧
      (∃ t, st'.Et = st.Et ++ t) ∧ st'.Et.length ≤ V.length - 1 := by
  have hci : ConnImp st := by
    intro a b h
    rw [hEt] at h
    rw [(connectedEt_nil a b).1 h]
  have hf : IsForest st.Et := by
    intro i hi
    rw [hEt] at hi
    exact absurd hi (Nat.not_lt_zero i)
  obtain ⟨st1, h1, _, _, _, _, hext⟩ :=
    commitLoop_invariants setOrder coords fuel st ep hWF hci hf
  obtain ⟨st2, h2, hle⟩ := commitLoop_count setOrder coords V fuel st ep hWF hep
  have heq : st1 = st2 := by
    have h := h1.symm.trans h2
    injection h
  subst heq
  refine ⟨st1, h1, hext, ?_⟩
  have hc1 : 0 < compCount V st1.uf := compCount_pos V st1.uf hV
  have hc0 : compCount V st.uf ≤ V.length := compCount_le V st.uf
  rw [hEt] at hle
  simp only [List.length_nil] at hle
  omega

/-- Witness for C7: the four-node single-candidate run. -/
theorem c7_witness :
    ∃ st', commitLoop id coords4 st40 ep41 2 = .ok st' ∧
      (∃ t, st'.Et = st40.Et ++ t) ∧ st'.Et.length ≤ [0, 1, 2, 3].length - 1 :=
  c7_theorem id coords4 [0, 1, 2, 3] 2 st40 ep41 (wfCheck_wf st40.uf (by decide))
    (by decide) (by decide) rfl

/-- Counterexample to C7 as stated: on the two-node input the engine does
not complete any round — it raises `NameError` in the initialisation loop. -/
theorem c7_counterexample : modBoruvka [0, 1] coords4 = .error .nameError := rfl

/-- C8: on the collinear containment configuration — candidate (0,0)-(1,0)
inside the accepted segment (-1,0)-(2,0), so numerator and denominator both
vanish — the source's chained `!=` overlap test yields no crossing, while
the specified collinear rule (overlap without a merely-shared endpoint)
requires one; `line_intersection` therefore lets the crossing segment
through. -/
theorem c8_theorem :
    np_cross (vsub (c8coords 2) (c8coords 0)) (vsub (c8coords 1) (c8coords 0)) = 0 ∧
    np_cross (vsub (c8coords 1) (c8coords 0)) (vsub (c8coords 3) (c8coords 2)) = 0 ∧
    pairCrosses (c8coords 0) (c8coords 1) (c8coords 2) (c8coords 3) = false ∧
    specCollinearCrossing (c8coords 0) (c8coords 1) (c8coords 2) (c8coords 3) = true ∧
    line_intersection [(2, 3)] 0 1 c8coords = false :=
  ⟨by decide, by decide, by decide, by decide, by decide⟩

/-- C9 (amended): a popped candidate `(u, v, d)` pops the top of `u`'s
component queue exactly when `find(u) = find(v)` or `mv[u] < d`; in the
remaining uncommitted case — roots differ, `d ≤ mv[u]` but `mv[v] < d` —
the step changes nothing at all, leaving `u`'s queue untouched. -/
theorem c9_theorem (setOrder : List (Entry (Nat × Nat)) → List (Entry (Nat × Nat)))
    (coords : Nat → ℚ × ℚ) (st : EngineState) (u v : Nat) (d : ℚ)
    (hWF : WF st.uf) (hu : Registered st.uf u) :
    ((rootD st.uf u = rootD st.uf v ∨ st.uf.mv u < d) →
      ∃ st', commitStep setOrder coords st (u, v, d) = .ok st' ∧
        st'.Et = st.Et ∧ st'.rtree = st.rtree ∧
        (((st.uf.queueStore (st.uf.queueRef u)).pop = none ∧
            st'.uf.queueStore (st.uf.queueRef u) = st.uf.queueStore (st.uf.queueRef u)) ∨
          (∃ it q', (st.uf.queueStore (st.uf.queueRef u)).pop = some (it, q') ∧
            st'.uf.queueStore (st.uf.queueRef u) = q'))) ∧
    ((rootD st.uf u ≠ rootD st.uf v ∧ d ≤ st.uf.mv u ∧ st.uf.mv v < d) → Registered st.uf v →
      ∃ st', commitStep setOrder coords st (u, v, d) = .ok st' ∧
        st'.Et = st.Et ∧ st'.rtree = st.rtree ∧
        (∀ z, Registered st.uf z →
          st'.uf.queueStore (st'.uf.queueRef z) = st.uf.queueStore (st.uf.queueRef z)) ∧
        (∀ z, Registered st.uf z → st'.uf.mv z = st.uf.mv z) ∧
        (∀ y, rootD st'.uf y = rootD st.uf y)) :=
  commitStep_prune setOrder coords st u v d hWF hu

/-- Witness for C9: the insolvent-side case on the two-node state with a
queued candidate. -/
theorem c9_witness :
    ∃ st', commitStep id coords5 c9st (0, 1, 5) = .ok st' ∧
      st'.Et = c9st.Et ∧ st'.rtree = c9st.rtree ∧
      (∀ z, Registered c9st.uf z →
        st'.uf.queueStore (st'.uf.queueRef z) = c9st.uf.queueStore (c9st.uf.queueRef z)) ∧
      (∀ z, Registered c9st.uf z → st'.uf.mv z = c9st.uf.mv z) ∧
      (∀ y, rootD st'.uf y = rootD c9st.uf y) :=
  (c9_theorem id coords5 c9st 0 1 5 (wfCheck_wf c9st.uf (by decide)) (by decide)).2
    (by decide) (by decide)

/-- Counterexample to C9 as stated: at `c9st` the candidate `(0, 1, 5)` has
distinct roots, `mv[0] = 10 ≥ 5` but `mv[1] = 0 < 5`, so it is not
committed; yet node 0's non-empty component queue is left untouched instead
of being popped. -/
theorem c9_counterexample :
    rootD c9st.uf 0 ≠ rootD c9st.uf 1 ∧
    (5 : ℚ) ≤ c9st.uf.mv 0 ∧ c9st.uf.mv 1 < 5 ∧
    (c9st.uf.queueStore (c9st.uf.queueRef 0))._queue ≠ [] ∧
    c9st'.Et = c9st.Et ∧
    (c9st'.uf.queueStore (c9st'.uf.queueRef 0))._queue =
      (c9st.uf.queueStore (c9st.uf.queueRef 0))._queue :=
  ⟨by decide, by decide, by decide, by decide, by decide, by decide⟩

/-- C10: on the empty node list the engine raises `ValueError` (from
`np.row_stack` on an empty sequence) instead of returning an empty forest,
and on a singleton node list it raises `NameError` (from the first `FNNd`
call) instead of returning an empty forest. -/
theorem c10_theorem :
    modBoruvka [] coords4 = .error .valueError ∧
    modBoruvka [0] coords4 = .error .nameError :=
  ⟨rfl, rfl⟩

end Networker


